import Mathlib

/-!
# `_fastrand.c`: random bit vectors

A shallow embedding of `client/python/_fastrand.c` (`randbits`, `func_randbits`) and
theorems about it.

Conventions of the embedding.

* The C type `float` is IEEE 754 binary32 (`F32` below), arithmetic is performed in the
  format of the operands (`FLT_EVAL_METHOD == 0`) with round-to-nearest, ties-to-even.
* `int` is 32 bits wide, `uint64_t` is a natural number below `2 ^ 64`.
* `RAND_MAX` and the value an out-of-range float-to-int conversion produces are not fixed
  by the source: they are fields of a `Platform`.
* `rand()` is the C library generator. Its hidden state is made explicit: a generator is
  a function `rand : σ → Nat × σ` returning the draw and the next state.
-/

namespace Fastrand

/-! ## IEEE 754 binary32 -/

/-- A binary32 datum: a NaN, an infinity, or the finite value `(-1)^neg * m * 2^e`
(both signed zeros are finite values with `m = 0`). -/
inductive F32 where
  | nan : F32
  | inf (neg : Bool) : F32
  | fin (neg : Bool) (m : Nat) (e : Int) : F32
deriving DecidableEq, Repr

namespace F32

/-- The finite values binary32 can hold: at most 24 significant bits, exponent of the
last place between `-149` and `104`. -/
def wf : F32 → Prop
  | nan => True
  | inf _ => True
  | fin _ m e => m < 2 ^ 24 ∧ -149 ≤ e ∧ e ≤ 104

instance (x : F32) : Decidable x.wf := by
  cases x <;> unfold wf <;> infer_instance

/-- The constant `0.0`. -/
def zero : F32 := fin false 0 0

/-- The constant `1.0`. -/
def one : F32 := fin false 1 0

/-- The value `0.5`. -/
def half : F32 := fin false 1 (-1)

/-- The exact value of a finite datum as a rational number (`0` for NaN and infinities). -/
def toRat : F32 → ℚ
  | fin neg m e => (if neg then -1 else 1) * (m : ℚ) * (2 : ℚ) ^ e
  | _ => 0

/-- Count the significant bits of `m` by repeated halving, at most `fuel` times. -/
def bitLengthAux : Nat → Nat → Nat
  | 0, _ => 0
  | fuel + 1, m => if m = 0 then 0 else bitLengthAux fuel (m / 2) + 1

/-- The number of significant bits of `m`: the least `n` with `m < 2^n`. -/
def bitLength (m : Nat) : Nat := bitLengthAux m m

/-- The exponent of the last place of the binary32 binade that holds `m * 2^e`, for
`m ≠ 0`: with `2^E ≤ m * 2^e < 2^(E+1)` it is `E - 23`, and `-149` for subnormals. -/
def ulpExp (m : Nat) (e : Int) : Int :=
  max ((bitLength m : Int) - 1 + e - 23) (-149)

/-- The number `m * 2^e` in units of `2^q`, rounded to the nearest integer, ties to
even. -/
def roundUnits (m : Nat) (e q : Int) : Nat :=
  if q ≤ e then m * 2 ^ (e - q).toNat
  else
    let k : Nat := (q - e).toNat
    let t0 : Nat := m / 2 ^ k
    let r : Nat := m % 2 ^ k
    let h : Nat := 2 ^ (k - 1)
    if h < r ∨ (r = h ∧ t0 % 2 = 1) then t0 + 1 else t0

/-- Round the non-negative dyadic number `m * 2^e` to the nearest binary32 magnitude,
ties to even. The result `some (m', q)` is the magnitude `m' * 2^q` with `m' < 2^24` and
`-149 ≤ q ≤ 104`; `none` is overflow (the rounded magnitude is `2^128` or more). -/
def roundMag (m : Nat) (e : Int) : Option (Nat × Int) :=
  if m = 0 then some (0, 0)
  else
    let q : Int := ulpExp m e
    let t : Nat := roundUnits m e q
    -- a carry out of the 24 bits moves to the next binade
    let q' : Int := if t = 2 ^ 24 then q + 1 else q
    let t' : Nat := if t = 2 ^ 24 then 2 ^ 23 else t
    if 104 < q' then none else some (t', q')

/-- The magnitude that rounding `m * 2^e` produces before the overflow test, in units of
`2^e` (for `e ≤ -149`, so that the last place is not below `2^e`). -/
def roundVal (m : Nat) (e : Int) : Nat :=
  roundUnits m e (ulpExp m e) * 2 ^ (ulpExp m e - e).toNat

/-- Round the dyadic number `(-1)^neg * m * 2^e` to binary32. -/
def round (neg : Bool) (m : Nat) (e : Int) : F32 :=
  match roundMag m e with
  | none => inf neg
  | some (m', q) => fin neg m' q

/-- Conversion `(float)n` of an integer. -/
def ofInt (n : Int) : F32 :=
  round (decide (n < 0)) n.natAbs 0

/-- The product `x * y` of two binary32 data. -/
def mul : F32 → F32 → F32
  | nan, _ => nan
  | _, nan => nan
  | inf s, inf t => inf (xor s t)
  | inf s, fin t m _ => if m = 0 then nan else inf (xor s t)
  | fin s m _, inf t => if m = 0 then nan else inf (xor s t)
  | fin s m₁ e₁, fin t m₂ e₂ => round (xor s t) (m₁ * m₂) (e₁ + e₂)

/-- The finite value scaled to an integer: `(-1)^neg * m * 2^(e - c)` for `c ≤ e`. -/
def scaled (neg : Bool) (m : Nat) (e c : Int) : Int :=
  let v : Int := (m * 2 ^ (e - c).toNat : Nat)
  if neg then -v else v

/-- The comparison `x < y`; false when either operand is a NaN. -/
def lt : F32 → F32 → Bool
  | nan, _ => false
  | _, nan => false
  | inf s, inf t => s && !t
  | inf s, fin _ _ _ => s
  | fin _ _ _, inf t => !t
  | fin s m₁ e₁, fin t m₂ e₂ =>
    let c := min e₁ e₂
    decide (scaled s m₁ e₁ c < scaled t m₂ e₂ c)

/-- INT_MIN of a 32-bit `int`. -/
def INT_MIN : Int := -2147483648

/-- INT_MAX of a 32-bit `int`. -/
def INT_MAX : Int := 2147483647

/-- The integral part of a finite datum (the fraction is discarded, i.e. truncation
toward zero) when a 32-bit `int` can represent it; `none` for NaN, infinities and
values whose integral part is out of range. -/
def toInt? : F32 → Option Int
  | fin neg m e =>
    let a : Nat := if 0 ≤ e then m * 2 ^ e.toNat else m / 2 ^ (-e).toNat
    let v : Int := if neg then -(a : Int) else a
    if INT_MIN ≤ v ∧ v ≤ INT_MAX then some v else none
  | _ => none

/-- The datum is a finite value in the closed interval `[0, 1]`: it is not negative and
`m * 2^e ≤ 1` (written without fractions, with `e = e.toNat - (-e).toNat`). -/
def inUnit : F32 → Prop
  | fin neg m e => (neg = false ∨ m = 0) ∧ m * 2 ^ e.toNat ≤ 2 ^ (-e).toNat
  | _ => False

instance (x : F32) : Decidable x.inUnit := by
  cases x <;> unfold inUnit <;> infer_instance

end F32

/-! ## The C implementation the module is compiled for -/

/-- What the source leaves to the C implementation. -/
structure Platform where
  /-- The value of the `RAND_MAX` of `<stdlib.h>`: `rand()` returns values in `0..RAND_MAX`. -/
  RAND_MAX : Nat
  /-- The `int` that `(int)x` yields when `x` is a NaN, an infinity, or a value whose
  integral part no `int` can represent (C leaves this conversion undefined). -/
  invalidCast : F32 → Int

/-- The GNU C library on x86-64: `RAND_MAX` is `2^31 - 1` and the conversion instruction
`cvttss2si` yields the "integer indefinite" value `INT_MIN` for an invalid operand. -/
def glibc_x86_64 : Platform := ⟨2147483647, fun _ => F32.INT_MIN⟩

/-- A C library with the smallest `RAND_MAX` the C standard allows (as in the Microsoft C
runtime), on x86-64. -/
def msvcrt_x86_64 : Platform := ⟨32767, fun _ => F32.INT_MIN⟩

/-- The conversion `(int)x`. -/
def castInt (P : Platform) (x : F32) : Int :=
  match x.toInt? with
  | some v => v
  | none => P.invalidCast x

/-! ## `randbits` -/

section Code

variable {σ : Type}

/-- The value of `threshold` in `randbits`: `(int)(p1 * RAND_MAX)`, where the usual
arithmetic conversions turn `RAND_MAX` into a `float` before the product is taken. -/
def threshold (P : Platform) (p1 : F32) : Int :=
  castInt P (F32.mul p1 (F32.ofInt P.RAND_MAX))

/-- The `for` loop of `randbits`, with `k = num_bits - i` iterations still to run:
each iteration draws once, compares the draw with the threshold, and ORs the resulting bit
into `result` at position `i`. (The shift is a `uint64_t` shift, hence the `% 2 ^ 64`.) -/
def randbits_loop (rand : σ → Nat × σ) (threshold : Int) :
    Nat → Nat → Nat → σ → Nat × σ
  | 0, _, result, s => (result, s)
  | k + 1, i, result, s =>
    let bit : Nat := if ((rand s).1 : Int) < threshold then 1 else 0
    randbits_loop rand threshold k (i + 1) (result ||| (bit <<< i) % 2 ^ 64) (rand s).2

/-- The function `uint64_t randbits(float p1, int num_bits)`: the returned value and the
generator state it leaves behind. The loop `for (i = 0; i < num_bits; ++i)` runs
`num_bits` times when `num_bits` is positive and not at all otherwise. -/
def randbits (P : Platform) (rand : σ → Nat × σ) (p1 : F32) (num_bits : Int) (s : σ) :
    Nat × σ :=
  randbits_loop rand (threshold P p1) num_bits.toNat 0 0 s

/-! ## `func_randbits` -/

/-- What `func_randbits` hands back to the interpreter: `NULL` (an exception is pending),
the object `None`, or an integer object. -/
inductive PyObject where
  | NULL : PyObject
  | None : PyObject
  | Long (v : Nat) : PyObject
deriving DecidableEq, Repr

/-- The state `func_randbits` acts on: the generator behind `rand()` and the text written
to standard output so far. -/
structure World (σ : Type) where
  rng : σ
  stdout : List String

/-- The function `func_randbits`. `args` is the outcome of
`PyArg_ParseTuple(args, "fi", &p1, &num_bits)`: `none` when parsing fails, otherwise the
parsed `float` and `int`. The literals `0.0` and `1.0` are exactly representable, so the
comparisons (carried out in `double`) compare exact values. -/
def func_randbits (P : Platform) (rand : σ → Nat × σ) (args : Option (F32 × Int))
    (w : World σ) : PyObject × World σ :=
  match args with
  | none => (PyObject.NULL, w)
  | some (p1, num_bits) =>
    if F32.lt p1 F32.zero || F32.lt F32.one p1 then
      (PyObject.None, ⟨w.rng, w.stdout ++ ["p1 must be between 0.0 and 1.0\n"]⟩)
    else if num_bits < 0 || num_bits > 64 then
      (PyObject.None, ⟨w.rng, w.stdout ++ ["num_bits must be 64 or less\n"]⟩)
    else
      let r := randbits P rand p1 num_bits w.rng
      (PyObject.Long r.1, ⟨r.2, w.stdout⟩)

/-! ## Generators and draws -/

/-- The generator state after `n` calls of `rand()`. -/
def advance (rand : σ → Nat × σ) : Nat → σ → σ
  | 0, s => s
  | n + 1, s => advance rand n (rand s).2

/-- The value of the `i`-th call of `rand()` (counting from `0`) made from state `s`. -/
def draw (rand : σ → Nat × σ) (s : σ) (i : Nat) : Nat :=
  (rand (advance rand i s)).1

/-- A generator that replays a recorded list of draws, and yields `0` once the list is
exhausted. -/
def replay : List Nat → Nat × List Nat
  | [] => (0, [])
  | d :: ds => (d, ds)

/-- The threshold as the specification words it: `floor(p * MAX)`, taken over the exact
value of `p` and the integer `MAX = RAND_MAX`. -/
def floorThreshold (P : Platform) (p : F32) : Int :=
  ⌊p.toRat * (P.RAND_MAX : ℚ)⌋

/-- The draw values in `0..RAND_MAX` that set a bit: those `d` for which `randbits`,
asked for one bit and drawing `d`, returns `1`. -/
def settingDraws (P : Platform) (p1 : F32) : Finset Nat :=
  (Finset.range (P.RAND_MAX + 1)).filter (fun d => (randbits P replay p1 1 [d]).1 = 1)

/-- The probability that a bit is set when the draw is uniform over the `RAND_MAX + 1`
values `0..RAND_MAX`: the share of draw values that set it. -/
def realizedProbability (P : Platform) (p1 : F32) : ℚ :=
  ((settingDraws P p1).card : ℚ) / ((P.RAND_MAX + 1 : Nat) : ℚ)

/-- The Hamming weight of a 64-bit value: the number of bit positions that hold a 1. -/
def hammingWeight (r : Nat) : Nat :=
  ((Finset.range 64).filter (fun i => r.testBit i = true)).card

/-- The sequences of `n` draws, each in `0..RAND_MAX`, on which `randbits(p1, n)` returns
`r` (the generator hands out the sequence in order, the first draw first). -/
def drawsGiving (P : Platform) (p1 : F32) (n r : Nat) :
    Finset (Fin n → Fin (P.RAND_MAX + 1)) :=
  Finset.univ.filter
    (fun f => (randbits P replay p1 (n : Int) (List.ofFn (fun i => (f i : Nat)))).1 = r)

/-- The left shifts `bit << i` the loop of `randbits` performs, in order, with `k`
iterations still to run: the operand `bit` and the shift amount `i` of each. -/
def randbits_shifts (rand : σ → Nat × σ) (threshold : Int) :
    Nat → Nat → σ → List (Nat × Nat)
  | 0, _, _ => []
  | k + 1, i, s =>
    let bit : Nat := if ((rand s).1 : Int) < threshold then 1 else 0
    (bit, i) :: randbits_shifts rand threshold k (i + 1) (rand s).2

/-- A run of the module: the calls of `func_randbits` made one after the other, each on the
state the previous one left; the objects returned, in order, and the final state. -/
def runCalls (P : Platform) (rand : σ → Nat × σ) :
    List (Option (F32 × Int)) → World σ → List PyObject × World σ
  | [], w => ([], w)
  | a :: rest, w =>
    let r := func_randbits P rand a w
    let rs := runCalls P rand rest r.2
    (r.1 :: rs.1, rs.2)

end Code

/-! ## Lemmas on binary32 -/

section Binary32

/-- The conversion `(float)RAND_MAX` for glibc's `RAND_MAX = 2^31 - 1` rounds up to
`2^31`. -/
theorem ofInt_glibc_RAND_MAX :
    F32.ofInt 2147483647 = F32.fin false 8388608 8 := by decide

/-- The integer `32767` is converted exactly. -/
theorem ofInt_small_RAND_MAX :
    F32.ofInt 32767 = F32.fin false 16776704 (-9) ∧
    (F32.fin false 16776704 (-9)).toRat = 32767 := by
  refine ⟨by decide, ?_⟩
  norm_num [F32.toRat, zpow_neg]

/-- Conversions of integers that need 25 bits are ties: they go to the even neighbour. -/
theorem ofInt_ties_to_even :
    F32.ofInt 16777217 = F32.fin false 8388608 1 ∧
    F32.ofInt 16777219 = F32.fin false 8388610 1 ∧
    F32.ofInt (-16777219) = F32.fin true 8388610 1 := by
  refine ⟨by decide, by decide, by decide⟩

/-- Products: a subnormal tie, an overflow to infinity, and `0 * ∞`. -/
theorem mul_samples :
    F32.mul (F32.fin false 3 (-149)) F32.half = F32.fin false 2 (-149) ∧
    F32.mul (F32.fin false 1 (-149)) F32.half = F32.fin false 0 (-149) ∧
    F32.mul (F32.fin false (2 ^ 24 - 1) 104) (F32.fin false 2 0) = F32.inf false ∧
    F32.mul F32.zero (F32.inf true) = F32.nan := by
  refine ⟨by decide, by decide, by decide, by decide⟩

/-- The function `roundUnits` is exact when no bit is dropped; otherwise it returns a nearest
multiple of `2^q`: the error is at most half a unit, and at exactly half a unit the
result is even. -/
theorem roundUnits_spec (m : Nat) (e q : Int) :
    (q ≤ e → F32.roundUnits m e q = m * 2 ^ (e - q).toNat) ∧
    (e < q →
      2 * (F32.roundUnits m e q * 2 ^ (q - e).toNat) ≤ 2 * m + 2 ^ (q - e).toNat ∧
      2 * m ≤ 2 * (F32.roundUnits m e q * 2 ^ (q - e).toNat) + 2 ^ (q - e).toNat ∧
      ((2 * (F32.roundUnits m e q * 2 ^ (q - e).toNat) = 2 * m + 2 ^ (q - e).toNat ∨
        2 * m = 2 * (F32.roundUnits m e q * 2 ^ (q - e).toNat) + 2 ^ (q - e).toNat) →
        F32.roundUnits m e q % 2 = 0)) := by
  constructor
  · intro h
    simp [F32.roundUnits, h]
  · intro h
    have hq : ¬ q ≤ e := by omega
    obtain ⟨k, hk⟩ : ∃ k, (q - e).toNat = k + 1 := ⟨(q - e).toNat - 1, by omega⟩
    simp only [F32.roundUnits, hq, if_false, hk, Nat.add_sub_cancel]
    have hdm := Nat.div_add_mod m (2 ^ (k + 1))
    have hlt : m % 2 ^ (k + 1) < 2 ^ (k + 1) := Nat.mod_lt _ (by positivity)
    rw [Nat.pow_succ] at hdm hlt ⊢
    generalize m / (2 ^ k * 2) = t0 at hdm ⊢
    generalize m % (2 ^ k * 2) = r at hdm hlt ⊢
    generalize 2 ^ k = H at hdm hlt ⊢
    have e1 : (t0 + 1) * (H * 2) = H * 2 * t0 + H * 2 := by ring
    have e2 : t0 * (H * 2) = H * 2 * t0 := by ring
    split
    · rename_i hc
      rw [e1]
      refine ⟨by omega, by omega, ?_⟩
      intro hh
      rcases hc with hc | ⟨hc1, hc2⟩
      · omega
      · omega
    · rename_i hc
      rw [e2]
      have hc' : ¬ H < r ∧ ¬ (r = H ∧ t0 % 2 = 1) := not_or.mp hc
      refine ⟨by omega, by omega, ?_⟩
      intro hh
      have : r = H := by omega
      have : ¬ t0 % 2 = 1 := fun h1 => hc'.2 ⟨this, h1⟩
      omega

theorem bitLengthAux_spec (fuel m : Nat) (hf : m ≤ fuel) (hm : m ≠ 0) :
    2 ^ (F32.bitLengthAux fuel m - 1) ≤ m ∧ m < 2 ^ F32.bitLengthAux fuel m := by
  induction fuel generalizing m with
  | zero => omega
  | succ fuel ih =>
    unfold F32.bitLengthAux
    simp only [hm, if_false]
    by_cases h2 : m / 2 = 0
    · have h1 : m = 1 := by omega
      subst h1
      cases fuel <;> simp [F32.bitLengthAux]
    · obtain ⟨ih1, ih2⟩ := ih (m / 2) (by omega) h2
      have hpos : F32.bitLengthAux fuel (m / 2) ≠ 0 := by
        intro h0
        rw [h0] at ih2
        simp at ih2
        exact h2 ih2
      obtain ⟨j, hj⟩ := Nat.exists_eq_succ_of_ne_zero hpos
      rw [hj] at ih1 ih2 ⊢
      simp only [Nat.succ_eq_add_one, Nat.add_sub_cancel] at ih1 ⊢
      rw [Nat.pow_succ] at ih2 ⊢
      rw [Nat.pow_succ]
      constructor <;> omega

/-- The function `bitLength` returns the position of the leading bit plus one. -/
theorem bitLength_spec (m : Nat) (hm : m ≠ 0) :
    2 ^ (F32.bitLength m - 1) ≤ m ∧ m < 2 ^ F32.bitLength m :=
  bitLengthAux_spec m m (Nat.le_refl m) hm

theorem roundUnits_le (m L : Nat) (e q : Int) (hm : m < 2 ^ L) (hq : (L : Int) + e - 24 ≤ q) :
    F32.roundUnits m e q ≤ 2 ^ 24 := by
  unfold F32.roundUnits
  by_cases h : q ≤ e
  · simp only [h, if_true]
    obtain ⟨j, hj⟩ : ∃ j, (e - q).toNat = j := ⟨_, rfl⟩
    rw [hj]
    have hLj : L + j ≤ 24 := by omega
    calc m * 2 ^ j ≤ 2 ^ L * 2 ^ j := Nat.mul_le_mul_right _ (Nat.le_of_lt hm)
      _ = 2 ^ (L + j) := (Nat.pow_add 2 L j).symm
      _ ≤ 2 ^ 24 := Nat.pow_le_pow_right (by decide) hLj
  · simp only [h, if_false]
    obtain ⟨k, hk⟩ : ∃ k, (q - e).toNat = k := ⟨_, rfl⟩
    rw [hk]
    have hLk : L ≤ 24 + k := by omega
    have h1 : m < 2 ^ 24 * 2 ^ k :=
      calc m < 2 ^ L := hm
        _ ≤ 2 ^ (24 + k) := Nat.pow_le_pow_right (by decide) hLk
        _ = 2 ^ 24 * 2 ^ k := Nat.pow_add 2 24 k
    have h2 : m / 2 ^ k < 2 ^ 24 := (Nat.div_lt_iff_lt_mul (by positivity)).mpr h1
    split <;> omega

/-- Rounding yields a binary32 value: at most 24 significant bits and an exponent of the
last place within `-149..104`. -/
theorem round_wf (neg : Bool) (m : Nat) (e : Int) : (F32.round neg m e).wf := by
  unfold F32.round
  cases h : F32.roundMag m e with
  | none => trivial
  | some v =>
    obtain ⟨t, q⟩ := v
    show t < 2 ^ 24 ∧ -149 ≤ q ∧ q ≤ 104
    unfold F32.roundMag at h
    by_cases hm : m = 0
    · simp only [hm, if_true, Option.some.injEq, Prod.mk.injEq] at h
      obtain ⟨rfl, rfl⟩ := h
      decide
    · simp only [hm, if_false] at h
      have hb := (bitLength_spec m hm).2
      have hq0 : -149 ≤ F32.ulpExp m e := le_max_right _ _
      have hq1 : (F32.bitLength m : Int) + e - 24 ≤ F32.ulpExp m e := by
        unfold F32.ulpExp
        have := le_max_left ((F32.bitLength m : Int) - 1 + e - 23) (-149)
        omega
      have ht := roundUnits_le m (F32.bitLength m) e (F32.ulpExp m e) hb hq1
      generalize F32.roundUnits m e (F32.ulpExp m e) = u at h ht
      generalize F32.ulpExp m e = q0 at h hq0
      by_cases hu : u = 2 ^ 24
      · simp only [hu, if_true] at h
        by_cases hg : 104 < q0 + 1
        · simp [hg] at h
        · simp only [hg, if_false, Option.some.injEq, Prod.mk.injEq] at h
          obtain ⟨h1, h2⟩ := h
          subst h1 h2
          refine ⟨by decide, by omega, by omega⟩
      · simp only [hu, if_false] at h
        by_cases hg : 104 < q0
        · simp [hg] at h
        · simp only [hg, if_false, Option.some.injEq, Prod.mk.injEq] at h
          obtain ⟨h1, h2⟩ := h
          subst h1 h2
          refine ⟨by omega, by omega, by omega⟩

/-- Products and integer conversions are binary32 values. -/
theorem mul_wf (x y : F32) : (F32.mul x y).wf := by
  cases x <;> cases y <;> simp only [F32.mul] <;> first
    | trivial
    | exact round_wf _ _ _
    | (split <;> trivial)

theorem ofInt_wf (n : Int) : (F32.ofInt n).wf := round_wf _ _ _

/-- The predicate `inUnit` says that the exact value lies in `[0, 1]`. -/
theorem inUnit_iff_toRat (neg : Bool) (m : Nat) (e : Int) :
    (F32.fin neg m e).inUnit ↔ 0 ≤ (F32.fin neg m e).toRat ∧ (F32.fin neg m e).toRat ≤ 1 := by
  have h2 : (0 : ℚ) < (2 : ℚ) ^ e := by positivity
  have hm : (0 : ℚ) ≤ (m : ℚ) := by positivity
  have key : (m : ℚ) * (2 : ℚ) ^ e ≤ 1 ↔ m * 2 ^ e.toNat ≤ 2 ^ (-e).toNat := by
    rcases Int.le_total 0 e with he | he
    · obtain ⟨k, rfl⟩ := Int.eq_ofNat_of_zero_le he
      have h0 : (-(k : Int)).toNat = 0 := by omega
      rw [h0, pow_zero, Int.toNat_ofNat, zpow_natCast]
      constructor
      · intro h; exact_mod_cast h
      · intro h; exact_mod_cast h
    · obtain ⟨k, hk⟩ := Int.eq_ofNat_of_zero_le (Int.neg_nonneg.mpr he)
      have he2 : e = -(k : Int) := by omega
      subst he2
      have h0 : (-(k : Int)).toNat = 0 := by omega
      have h1 : (- -(k : Int)).toNat = k := by simp
      rw [h0, h1, pow_zero, mul_one, zpow_neg, zpow_natCast]
      have hk2 : (0 : ℚ) < (2 : ℚ) ^ k := by positivity
      rw [← div_eq_mul_inv, div_le_one hk2]
      constructor
      · intro h; exact_mod_cast h
      · intro h; exact_mod_cast h
  unfold F32.inUnit F32.toRat
  cases neg
  · simp only [Bool.false_eq_true, if_false, one_mul, true_or, true_and]
    rw [← key]
    constructor
    · intro h; exact ⟨by positivity, h⟩
    · intro h; exact h.2
  · simp only [if_true]
    constructor
    · rintro ⟨hm0 | hm0, _⟩
      · exact absurd hm0 (by decide)
      · subst hm0
        simp
    · rintro ⟨h0, _⟩
      refine ⟨Or.inr ?_, ?_⟩
      all_goals
        have hm0 : m = 0 := by
          by_contra hne
          have hpos : (0 : ℚ) < (m : ℚ) := by exact_mod_cast Nat.pos_of_ne_zero hne
          have : (0 : ℚ) < (m : ℚ) * (2 : ℚ) ^ e := by positivity
          linarith
      · exact hm0
      · subst hm0
        simp

theorem scaled_cast (s : Bool) (m : Nat) (e c : Int) (h : c ≤ e) :
    ((F32.scaled s m e c : Int) : ℚ) = (F32.fin s m e).toRat * (2 : ℚ) ^ (-c) := by
  obtain ⟨k, hk⟩ := Int.eq_ofNat_of_zero_le (Int.sub_nonneg.mpr h)
  have he : e = c + k := by omega
  have hpow : (2 : ℚ) ^ e * (2 : ℚ) ^ (-c) = (2 : ℚ) ^ k := by
    rw [← zpow_add₀ (by norm_num : (2 : ℚ) ≠ 0), he, ← zpow_natCast]
    congr 1
    omega
  unfold F32.scaled F32.toRat
  rw [hk, Int.toNat_ofNat]
  cases s
  · simp only [Bool.false_eq_true, if_false, one_mul]
    rw [mul_assoc, hpow]
    push_cast
    rfl
  · simp only [if_true]
    rw [mul_assoc, hpow]
    push_cast
    ring

/-- On finite data the comparison `lt` is the order of the exact values. -/
theorem lt_iff_toRat (s : Bool) (m₁ : Nat) (e₁ : Int) (t : Bool) (m₂ : Nat) (e₂ : Int) :
    F32.lt (F32.fin s m₁ e₁) (F32.fin t m₂ e₂) = true ↔
      (F32.fin s m₁ e₁).toRat < (F32.fin t m₂ e₂).toRat := by
  have h2 : (0 : ℚ) < (2 : ℚ) ^ (-(min e₁ e₂)) := by positivity
  simp only [F32.lt, decide_eq_true_eq]
  rw [← Int.cast_lt (R := ℚ), scaled_cast s m₁ e₁ _ (min_le_left _ _),
    scaled_cast t m₂ e₂ _ (min_le_right _ _)]
  exact mul_lt_mul_right h2

end Binary32

/-! ## Monotonicity of rounding -/

section Rounding

theorem bitLength_zero : F32.bitLength 0 = 0 := rfl

theorem bitLength_pos (m : Nat) (hm : m ≠ 0) : 1 ≤ F32.bitLength m := by
  have h := (bitLength_spec m hm).2
  by_contra hc
  have h0 : F32.bitLength m = 0 := by omega
  rw [h0] at h
  simp at h
  exact hm h

theorem bitLength_unique (m L : Nat) (hL : 1 ≤ L) (h1 : 2 ^ (L - 1) ≤ m) (h2 : m < 2 ^ L) :
    F32.bitLength m = L := by
  have hm : m ≠ 0 := by
    have : 0 < 2 ^ (L - 1) := by positivity
    omega
  obtain ⟨s1, s2⟩ := bitLength_spec m hm
  have hB := bitLength_pos m hm
  by_contra hne
  rcases Nat.lt_or_gt_of_ne hne with hlt | hgt
  · have : 2 ^ F32.bitLength m ≤ 2 ^ (L - 1) := Nat.pow_le_pow_right (by decide) (by omega)
    omega
  · have : 2 ^ L ≤ 2 ^ (F32.bitLength m - 1) := Nat.pow_le_pow_right (by decide) (by omega)
    omega

theorem bitLength_mul_pow (m j : Nat) (hm : m ≠ 0) :
    F32.bitLength (m * 2 ^ j) = F32.bitLength m + j := by
  obtain ⟨s1, s2⟩ := bitLength_spec m hm
  have hB := bitLength_pos m hm
  apply bitLength_unique
  · omega
  · have e : F32.bitLength m + j - 1 = (F32.bitLength m - 1) + j := by omega
    rw [e, Nat.pow_add]
    exact Nat.mul_le_mul_right _ s1
  · rw [Nat.pow_add]
    exact Nat.mul_lt_mul_of_pos_right s2 (by positivity)

theorem bitLength_mono (a b : Nat) (h : a ≤ b) : F32.bitLength a ≤ F32.bitLength b := by
  by_cases ha : a = 0
  · subst ha; rw [bitLength_zero]; exact Nat.zero_le _
  · have hb : b ≠ 0 := by omega
    obtain ⟨a1, a2⟩ := bitLength_spec a ha
    obtain ⟨b1, b2⟩ := bitLength_spec b hb
    by_contra hc
    have : 2 ^ F32.bitLength b ≤ 2 ^ (F32.bitLength a - 1) :=
      Nat.pow_le_pow_right (by decide) (by omega)
    omega

/-- The rounded significand for `q > e`, with the shift `k = q - e` made explicit. -/
theorem roundUnits_shift (m : Nat) (e q : Int) (k : Nat) (hk : q - e = (k : Int) + 1) :
    F32.roundUnits m e q =
      if 2 ^ k < m % 2 ^ (k + 1) ∨ (m % 2 ^ (k + 1) = 2 ^ k ∧ m / 2 ^ (k + 1) % 2 = 1)
      then m / 2 ^ (k + 1) + 1 else m / 2 ^ (k + 1) := by
  have hq : ¬ q ≤ e := by omega
  have hk2 : (q - e).toNat = k + 1 := by omega
  simp only [F32.roundUnits, hq, if_false, hk2, Nat.add_sub_cancel]

theorem roundUnits_exact (m : Nat) (e q : Int) (h : q ≤ e) :
    F32.roundUnits m e q = m * 2 ^ (e - q).toNat := by
  simp [F32.roundUnits, h]

/-- The rounded significand does not depend on how the dyadic number is written. -/
theorem roundUnits_scale (m j : Nat) (e q : Int) :
    F32.roundUnits (m * 2 ^ j) (e - j) q = F32.roundUnits m e q := by
  by_cases h1 : q ≤ e - j
  · rw [roundUnits_exact _ _ _ h1, roundUnits_exact _ _ _ (by omega)]
    have : (e - q).toNat = j + (e - ↑j - q).toNat := by omega
    rw [this, Nat.pow_add, Nat.mul_assoc]
  · by_cases h2 : q ≤ e
    · obtain ⟨k, hk⟩ : ∃ k : Nat, q - (e - j) = (k : Int) + 1 :=
        ⟨(q - (e - j) - 1).toNat, by omega⟩
      rw [roundUnits_shift _ _ _ k hk, roundUnits_exact _ _ _ h2]
      have hj : j = (e - q).toNat + (k + 1) := by omega
      have hpow : m * 2 ^ j = (m * 2 ^ (e - q).toNat) * 2 ^ (k + 1) := by
        rw [hj, Nat.pow_add, Nat.mul_assoc]
      have hpos : 0 < 2 ^ (k + 1) := by positivity
      have hk0 : 0 < 2 ^ k := by positivity
      rw [hpow, Nat.mul_mod_left, Nat.mul_div_cancel _ hpos]
      have hc : ¬ (2 ^ k < 0 ∨ (0 = 2 ^ k ∧ m * 2 ^ (e - q).toNat % 2 = 1)) := by
        rintro (h | ⟨h, _⟩) <;> omega
      rw [if_neg hc]
    · obtain ⟨k, hk⟩ : ∃ k : Nat, q - e = (k : Int) + 1 := ⟨(q - e - 1).toNat, by omega⟩
      have hk' : q - (e - j) = ((k + j : Nat) : Int) + 1 := by push_cast; omega
      rw [roundUnits_shift _ _ _ (k + j) hk', roundUnits_shift _ _ _ k hk]
      have e1 : 2 ^ (k + j + 1) = 2 ^ (k + 1) * 2 ^ j := by
        rw [← Nat.pow_add]; congr 1; omega
      have e2 : 2 ^ (k + j) = 2 ^ k * 2 ^ j := Nat.pow_add 2 k j
      have hpos : 0 < 2 ^ j := by positivity
      rw [e1, e2, Nat.mul_div_mul_right _ _ hpos, Nat.mul_mod_mul_right]
      have c1 : (2 ^ k * 2 ^ j < m % 2 ^ (k + 1) * 2 ^ j) = (2 ^ k < m % 2 ^ (k + 1)) := by
        apply propext
        exact Nat.mul_lt_mul_right hpos
      have c2 : (m % 2 ^ (k + 1) * 2 ^ j = 2 ^ k * 2 ^ j) = (m % 2 ^ (k + 1) = 2 ^ k) := by
        apply propext
        exact Nat.mul_left_inj (by omega)
      simp only [c1, c2]

/-- For a fixed last place the rounded significand is monotone. -/
theorem roundUnits_mono (a b : Nat) (e q : Int) (h : a ≤ b) :
    F32.roundUnits a e q ≤ F32.roundUnits b e q := by
  by_cases h1 : q ≤ e
  · rw [roundUnits_exact _ _ _ h1, roundUnits_exact _ _ _ h1]
    exact Nat.mul_le_mul_right _ h
  · obtain ⟨k, hk⟩ : ∃ k : Nat, q - e = (k : Int) + 1 := ⟨(q - e - 1).toNat, by omega⟩
    rw [roundUnits_shift _ _ _ k hk, roundUnits_shift _ _ _ k hk]
    have hpos : 0 < 2 ^ (k + 1) := by positivity
    have ha := Nat.div_add_mod a (2 ^ (k + 1))
    have hb := Nat.div_add_mod b (2 ^ (k + 1))
    have ha2 := Nat.mod_lt a hpos
    have hb2 := Nat.mod_lt b hpos
    have hdiv : a / 2 ^ (k + 1) ≤ b / 2 ^ (k + 1) := Nat.div_le_div_right h
    generalize a / 2 ^ (k + 1) = ta at *
    generalize b / 2 ^ (k + 1) = tb at *
    generalize a % 2 ^ (k + 1) = ra at *
    generalize b % 2 ^ (k + 1) = rb at *
    rw [Nat.pow_succ] at *
    generalize 2 ^ k = H at *
    rcases Nat.lt_or_ge ta tb with hlt | hge
    · split <;> split <;> omega
    · have heq : ta = tb := by omega
      subst heq
      have hr : ra ≤ rb := by
        have : H * 2 * ta + ra ≤ H * 2 * ta + rb := by omega
        omega
      split
      · rename_i hc
        split
        · omega
        · rename_i hc2
          exfalso
          apply hc2
          rcases hc with hc | ⟨hc, hodd⟩
          · left; omega
          · rcases Nat.lt_or_ge H rb with h3 | h3
            · left; exact h3
            · right; exact ⟨by omega, hodd⟩
      · split <;> omega

/-- Rounding does not step over a multiple of the unit. -/
theorem roundUnits_le_of_le (a B : Nat) (e q : Int) (hq : e ≤ q)
    (h : a ≤ B * 2 ^ (q - e).toNat) : F32.roundUnits a e q ≤ B := by
  by_cases h1 : q ≤ e
  · have : (q - e).toNat = 0 := by omega
    rw [this] at h
    rw [roundUnits_exact _ _ _ h1]
    have : (e - q).toNat = 0 := by omega
    rw [this]
    simpa using h
  · obtain ⟨k, hk⟩ : ∃ k : Nat, q - e = (k : Int) + 1 := ⟨(q - e - 1).toNat, by omega⟩
    have hk2 : (q - e).toNat = k + 1 := by omega
    rw [hk2] at h
    rw [roundUnits_shift _ _ _ k hk]
    have hpos : 0 < 2 ^ (k + 1) := by positivity
    have ha := Nat.div_add_mod a (2 ^ (k + 1))
    have ha2 := Nat.mod_lt a hpos
    have hdiv : a / 2 ^ (k + 1) ≤ B := by
      have := Nat.div_le_div_right (c := 2 ^ (k + 1)) h
      rwa [Nat.mul_div_cancel _ hpos] at this
    generalize a / 2 ^ (k + 1) = ta at *
    generalize a % 2 ^ (k + 1) = ra at *
    rw [Nat.pow_succ] at *
    have hk0 : 0 < 2 ^ k := by positivity
    generalize 2 ^ k = H at *
    rcases Nat.lt_or_ge ta B with hlt | hge
    · split <;> omega
    · have heq : ta = B := by omega
      subst heq
      have e1 : ta * (H * 2) = H * 2 * ta := Nat.mul_comm _ _
      have hr : ra = 0 := by omega
      subst hr
      have hc : ¬ (H < 0 ∨ (0 = H ∧ ta % 2 = 1)) := by
        rintro (h3 | ⟨h3, _⟩) <;> omega
      rw [if_neg hc]

theorem le_roundUnits_of_le (a B : Nat) (e q : Int) (hq : e ≤ q)
    (h : B * 2 ^ (q - e).toNat ≤ a) : B ≤ F32.roundUnits a e q := by
  by_cases h1 : q ≤ e
  · have : (q - e).toNat = 0 := by omega
    rw [this] at h
    rw [roundUnits_exact _ _ _ h1]
    have : (e - q).toNat = 0 := by omega
    rw [this]
    simpa using h
  · obtain ⟨k, hk⟩ : ∃ k : Nat, q - e = (k : Int) + 1 := ⟨(q - e - 1).toNat, by omega⟩
    have hk2 : (q - e).toNat = k + 1 := by omega
    rw [hk2] at h
    rw [roundUnits_shift _ _ _ k hk]
    have hpos : 0 < 2 ^ (k + 1) := by positivity
    have hdiv : B ≤ a / 2 ^ (k + 1) := by
      have := Nat.div_le_div_right (c := 2 ^ (k + 1)) h
      rwa [Nat.mul_div_cancel _ hpos] at this
    split <;> omega

theorem roundMag_eq (m : Nat) (e : Int) (hm : m ≠ 0) :
    F32.roundMag m e =
      if 104 < (if F32.roundUnits m e (F32.ulpExp m e) = 2 ^ 24 then F32.ulpExp m e + 1
        else F32.ulpExp m e) then none
      else some
        ((if F32.roundUnits m e (F32.ulpExp m e) = 2 ^ 24 then 2 ^ 23
          else F32.roundUnits m e (F32.ulpExp m e)),
         (if F32.roundUnits m e (F32.ulpExp m e) = 2 ^ 24 then F32.ulpExp m e + 1
          else F32.ulpExp m e)) := by
  simp only [F32.roundMag, hm, if_false]

theorem ulpExp_ge (m : Nat) (e : Int) : -149 ≤ F32.ulpExp m e := le_max_right _ _

theorem ulpExp_mono (a b : Nat) (e : Int) (h : a ≤ b) : F32.ulpExp a e ≤ F32.ulpExp b e := by
  have := bitLength_mono a b h
  unfold F32.ulpExp
  omega

theorem roundUnits_ulp_le (m : Nat) (e : Int) (hm : m ≠ 0) :
    F32.roundUnits m e (F32.ulpExp m e) ≤ 2 ^ 24 := by
  have hb := (bitLength_spec m hm).2
  apply roundUnits_le m (F32.bitLength m) e _ hb
  unfold F32.ulpExp
  omega

/-- A result of `roundMag` has the value `roundVal`, and its last place is not below
`2^(-149)`. -/
theorem roundMag_some (m : Nat) (e : Int) (hm : m ≠ 0) (he : e ≤ -149) (t : Nat) (q : Int)
    (h : F32.roundMag m e = some (t, q)) :
    e ≤ q ∧ q ≤ 104 ∧ t * 2 ^ (q - e).toNat = F32.roundVal m e := by
  rw [roundMag_eq m e hm] at h
  have hq0 := ulpExp_ge m e
  unfold F32.roundVal
  generalize F32.ulpExp m e = q0 at h hq0 ⊢
  generalize F32.roundUnits m e q0 = u at h ⊢
  by_cases hu : u = 2 ^ 24
  · simp only [hu, if_true] at h
    by_cases hg : 104 < q0 + 1
    · simp [hg] at h
    · simp only [hg, if_false, Option.some.injEq, Prod.mk.injEq] at h
      obtain ⟨h1, h2⟩ := h
      subst h1 h2 hu
      refine ⟨by omega, by omega, ?_⟩
      have : (q0 + 1 - e).toNat = (q0 - e).toNat + 1 := by omega
      rw [this, Nat.pow_succ]
      omega
  · simp only [hu, if_false] at h
    by_cases hg : 104 < q0
    · simp [hg] at h
    · simp only [hg, if_false, Option.some.injEq, Prod.mk.injEq] at h
      obtain ⟨h1, h2⟩ := h
      subst h1 h2
      exact ⟨by omega, by omega, rfl⟩

/-- Below the overflow threshold rounding is monotone: for `a ≤ b` in the same units, if
rounding `b` does not overflow then rounding `a` does not either, and the rounded value
of `a` is at most that of `b`. -/
theorem roundMag_mono (a b : Nat) (e : Int) (he : e ≤ -149) (hab : a ≤ b) (ha : a ≠ 0)
    (hb : F32.roundMag b e ≠ none) :
    F32.roundMag a e ≠ none ∧ F32.roundVal a e ≤ F32.roundVal b e := by
  have hb0 : b ≠ 0 := by omega
  rw [roundMag_eq b e hb0] at hb
  rw [roundMag_eq a e ha]
  have hqa := ulpExp_ge a e
  have hqab := ulpExp_mono a b e hab
  have hua := roundUnits_ulp_le a e ha
  have hub := roundUnits_ulp_le b e hb0
  have hovb : ¬ 104 < (if F32.roundUnits b e (F32.ulpExp b e) = 2 ^ 24
      then F32.ulpExp b e + 1 else F32.ulpExp b e) := by
    intro hc
    rw [if_pos hc] at hb
    exact hb rfl
  rcases lt_or_ge (F32.ulpExp a e) (F32.ulpExp b e) with hlt | hge
  · -- different binades
    constructor
    · have : ¬ 104 < (if F32.roundUnits a e (F32.ulpExp a e) = 2 ^ 24
          then F32.ulpExp a e + 1 else F32.ulpExp a e) := by
        split at hovb <;> split <;> omega
      rw [if_neg this]
      exact Option.some_ne_none _
    · unfold F32.roundVal
      have hLb : F32.ulpExp b e = (F32.bitLength b : Int) - 1 + e - 23 := by
        have h1 : F32.ulpExp b e = max ((F32.bitLength b : Int) - 1 + e - 23) (-149) := rfl
        omega
      have hLa : (F32.bitLength a : Int) - 1 + e - 23 ≤ F32.ulpExp a e := le_max_left _ _
      obtain ⟨kb, hkb⟩ : ∃ kb : Nat, (F32.ulpExp b e - e).toNat = kb := ⟨_, rfl⟩
      obtain ⟨ka, hka⟩ : ∃ ka : Nat, (F32.ulpExp a e - e).toNat = ka := ⟨_, rfl⟩
      have hkab : ka < kb := by omega
      have hLbk : F32.bitLength b = kb + 24 := by omega
      have hLak : F32.bitLength a ≤ kb + 23 := by omega
      have hb1 := (bitLength_spec b hb0).1
      have ha2 := (bitLength_spec a ha).2
      rw [hLbk] at hb1
      have e1 : kb + 24 - 1 = 23 + kb := by omega
      rw [e1, Nat.pow_add] at hb1
      have hlow : 2 ^ 23 ≤ F32.roundUnits b e (F32.ulpExp b e) :=
        le_roundUnits_of_le b (2 ^ 23) e _ (by omega) (by rw [hkb]; exact hb1)
      have ha3 : a ≤ 2 ^ (23 + kb - ka) * 2 ^ ka := by
        rw [← Nat.pow_add]
        have : 23 + kb - ka + ka = kb + 23 := by omega
        rw [this]
        exact Nat.le_of_lt (lt_of_lt_of_le ha2 (Nat.pow_le_pow_right (by decide) hLak))
      have hup : F32.roundUnits a e (F32.ulpExp a e) ≤ 2 ^ (23 + kb - ka) :=
        roundUnits_le_of_le a _ e _ (by omega) (by rw [hka]; exact ha3)
      rw [hka, hkb]
      calc F32.roundUnits a e (F32.ulpExp a e) * 2 ^ ka
          ≤ 2 ^ (23 + kb - ka) * 2 ^ ka := Nat.mul_le_mul_right _ hup
        _ = 2 ^ 23 * 2 ^ kb := by
            rw [← Nat.pow_add, ← Nat.pow_add]
            congr 1
            omega
        _ ≤ F32.roundUnits b e (F32.ulpExp b e) * 2 ^ kb := Nat.mul_le_mul_right _ hlow
  · -- the same binade
    have heq : F32.ulpExp a e = F32.ulpExp b e := by omega
    have hmono := roundUnits_mono a b e (F32.ulpExp b e) hab
    rw [heq] at hua ⊢
    constructor
    · have : ¬ 104 < (if F32.roundUnits a e (F32.ulpExp b e) = 2 ^ 24
          then F32.ulpExp b e + 1 else F32.ulpExp b e) := by
        by_cases hc : F32.roundUnits a e (F32.ulpExp b e) = 2 ^ 24
        · have hc2 : F32.roundUnits b e (F32.ulpExp b e) = 2 ^ 24 := by omega
          rw [if_pos hc]
          rw [if_pos hc2] at hovb
          exact hovb
        · rw [if_neg hc]
          split at hovb <;> omega
      rw [if_neg this]
      exact Option.some_ne_none _
    · unfold F32.roundVal
      rw [heq]
      exact Nat.mul_le_mul_right _ hmono

theorem ulpExp_scale (m j : Nat) (e : Int) (hm : m ≠ 0) :
    F32.ulpExp (m * 2 ^ j) (e - j) = F32.ulpExp m e := by
  unfold F32.ulpExp
  rw [bitLength_mul_pow m j hm]
  congr 1
  push_cast
  omega

/-- The result of `roundMag` does not depend on how the dyadic number is written. -/
theorem roundMag_scale (m j : Nat) (e : Int) :
    F32.roundMag (m * 2 ^ j) (e - j) = F32.roundMag m e := by
  by_cases hm : m = 0
  · subst hm
    simp [F32.roundMag]
  · have hm2 : m * 2 ^ j ≠ 0 := Nat.mul_ne_zero hm (by positivity)
    rw [roundMag_eq _ _ hm2, roundMag_eq _ _ hm, ulpExp_scale m j e hm, roundUnits_scale]

/-- The integral part of `t * 2^q`, computed from the value in units of `2^c`. -/
theorem integral_part_units (t : Nat) (q c : Int) (hc : c ≤ q) (hc0 : c ≤ 0) :
    (if 0 ≤ q then t * 2 ^ q.toNat else t / 2 ^ (-q).toNat)
      = t * 2 ^ (q - c).toNat / 2 ^ (-c).toNat := by
  by_cases hq : 0 ≤ q
  · rw [if_pos hq]
    have : (q - c).toNat = q.toNat + (-c).toNat := by omega
    rw [this, Nat.pow_add, ← Nat.mul_assoc, Nat.mul_div_cancel _ (by positivity)]
  · rw [if_neg hq]
    have : (-c).toNat = (q - c).toNat + (-q).toNat := by omega
    rw [this, Nat.pow_add, Nat.mul_comm t, Nat.mul_div_mul_left _ _ (by positivity)]

/-- The conversion to `int` of a non-negative finite datum, from its value in units of
`2^c`. -/
theorem toInt?_units (t : Nat) (q c : Int) (hc : c ≤ q) (hc0 : c ≤ 0) :
    F32.toInt? (F32.fin false t q) =
      if t * 2 ^ (q - c).toNat / 2 ^ (-c).toNat ≤ 2147483647
      then some ((t * 2 ^ (q - c).toNat / 2 ^ (-c).toNat : Nat) : Int) else none := by
  simp only [F32.toInt?, Bool.false_eq_true, if_false, F32.INT_MIN, F32.INT_MAX]
  rw [integral_part_units t q c hc hc0]
  generalize t * 2 ^ (q - c).toNat / 2 ^ (-c).toNat = v
  by_cases hv : v ≤ 2147483647
  · have : (-2147483648 : Int) ≤ (v : Int) ∧ (v : Int) ≤ 2147483647 := by omega
    rw [if_pos this, if_pos hv]
  · have : ¬ ((-2147483648 : Int) ≤ (v : Int) ∧ (v : Int) ≤ 2147483647) := by omega
    rw [if_neg this, if_neg hv]

theorem cast_units (M : Nat) (E c : Int) (hc : c ≤ E) :
    ((M * 2 ^ (E - c).toNat : Nat) : ℚ) = (M : ℚ) * (2 : ℚ) ^ E * (2 : ℚ) ^ (-c) := by
  obtain ⟨k, hk⟩ := Int.eq_ofNat_of_zero_le (Int.sub_nonneg.mpr hc)
  have hpow : (2 : ℚ) ^ E * (2 : ℚ) ^ (-c) = (2 : ℚ) ^ k := by
    rw [← zpow_add₀ (by norm_num : (2 : ℚ) ≠ 0), ← zpow_natCast]
    congr 1
  rw [hk, Int.toNat_ofNat, mul_assoc, hpow]
  push_cast
  rfl

/-- Rounding followed by the conversion to `int` is monotone on positive dyadic numbers:
if the larger one converts to `v₂`, the smaller one converts to some `v₁` with
`0 ≤ v₁ ≤ v₂`. -/
theorem round_toInt_mono (M₁ M₂ : Nat) (E₁ E₂ : Int) (hM : M₁ ≠ 0)
    (hle : (M₁ : ℚ) * (2 : ℚ) ^ E₁ ≤ (M₂ : ℚ) * (2 : ℚ) ^ E₂) (v₂ : Int)
    (h₂ : F32.toInt? (F32.round false M₂ E₂) = some v₂) :
    ∃ v₁, F32.toInt? (F32.round false M₁ E₁) = some v₁ ∧ 0 ≤ v₁ ∧ v₁ ≤ v₂ := by
  have hM2 : M₂ ≠ 0 := by
    rintro rfl
    have h1 : (0 : ℚ) < (M₁ : ℚ) * (2 : ℚ) ^ E₁ := by
      have : (0 : ℚ) < (M₁ : ℚ) := by exact_mod_cast Nat.pos_of_ne_zero hM
      positivity
    simp at hle
    linarith
  obtain ⟨c, hc⟩ : ∃ c : Int, c = min (min E₁ E₂) (-149) := ⟨_, rfl⟩
  have hc1 : c ≤ E₁ := by omega
  have hc2 : c ≤ E₂ := by omega
  have hc3 : c ≤ -149 := by omega
  obtain ⟨j₁, hj₁⟩ : ∃ j : Nat, (E₁ - c).toNat = j := ⟨_, rfl⟩
  obtain ⟨j₂, hj₂⟩ : ∃ j : Nat, (E₂ - c).toNat = j := ⟨_, rfl⟩
  have hAB : M₁ * 2 ^ j₁ ≤ M₂ * 2 ^ j₂ := by
    have h1 := cast_units M₁ E₁ c hc1
    have h2 := cast_units M₂ E₂ c hc2
    rw [hj₁] at h1
    rw [hj₂] at h2
    have hpos : (0 : ℚ) < (2 : ℚ) ^ (-c) := by positivity
    have : ((M₁ * 2 ^ j₁ : Nat) : ℚ) ≤ ((M₂ * 2 ^ j₂ : Nat) : ℚ) := by
      rw [h1, h2]
      exact mul_le_mul_of_nonneg_right hle (le_of_lt hpos)
    exact_mod_cast this
  have hA0 : M₁ * 2 ^ j₁ ≠ 0 := Nat.mul_ne_zero hM (by positivity)
  have hB0 : M₂ * 2 ^ j₂ ≠ 0 := Nat.mul_ne_zero hM2 (by positivity)
  have hs1 : F32.roundMag M₁ E₁ = F32.roundMag (M₁ * 2 ^ j₁) c := by
    have := roundMag_scale M₁ j₁ E₁
    have e : E₁ - (j₁ : Int) = c := by omega
    rw [e] at this
    exact this.symm
  have hs2 : F32.roundMag M₂ E₂ = F32.roundMag (M₂ * 2 ^ j₂) c := by
    have := roundMag_scale M₂ j₂ E₂
    have e : E₂ - (j₂ : Int) = c := by omega
    rw [e] at this
    exact this.symm
  unfold F32.round at h₂ ⊢
  rw [hs2] at h₂
  rw [hs1]
  cases hB : F32.roundMag (M₂ * 2 ^ j₂) c with
  | none =>
    rw [hB] at h₂
    simp [F32.toInt?] at h₂
  | some vB =>
    obtain ⟨t₂, q₂⟩ := vB
    rw [hB] at h₂
    have hBne : F32.roundMag (M₂ * 2 ^ j₂) c ≠ none := by rw [hB]; exact Option.some_ne_none _
    obtain ⟨hAne, hval⟩ := roundMag_mono _ _ c hc3 hAB hA0 hBne
    cases hA : F32.roundMag (M₁ * 2 ^ j₁) c with
    | none => exact absurd hA hAne
    | some vA =>
      obtain ⟨t₁, q₁⟩ := vA
      obtain ⟨a1, _, a3⟩ := roundMag_some _ c hA0 hc3 t₁ q₁ hA
      obtain ⟨b1, _, b3⟩ := roundMag_some _ c hB0 hc3 t₂ q₂ hB
      simp only at h₂ ⊢
      rw [toInt?_units t₂ q₂ c b1 (by omega), b3] at h₂
      rw [toInt?_units t₁ q₁ c a1 (by omega), a3]
      have hdiv : F32.roundVal (M₁ * 2 ^ j₁) c / 2 ^ (-c).toNat
          ≤ F32.roundVal (M₂ * 2 ^ j₂) c / 2 ^ (-c).toNat := Nat.div_le_div_right hval
      by_cases hv : F32.roundVal (M₂ * 2 ^ j₂) c / 2 ^ (-c).toNat ≤ 2147483647
      · rw [if_pos hv] at h₂
        have hv1 : F32.roundVal (M₁ * 2 ^ j₁) c / 2 ^ (-c).toNat ≤ 2147483647 := by omega
        rw [if_pos hv1]
        refine ⟨_, rfl, Int.ofNat_zero_le _, ?_⟩
        rw [← Option.some.inj h₂]
        exact_mod_cast hdiv
      · rw [if_neg hv] at h₂
        exact absurd h₂ (by simp)

end Rounding

/-! ## Lemmas on the loop -/

section Loop

variable {σ : Type}

theorem advance_succ (rand : σ → Nat × σ) (n : Nat) (s : σ) :
    advance rand (n + 1) s = (rand (advance rand n s)).2 := by
  induction n generalizing s with
  | zero => rfl
  | succ n ih => exact ih (rand s).2

theorem advance_add (rand : σ → Nat × σ) (m n : Nat) (s : σ) :
    advance rand (m + n) s = advance rand n (advance rand m s) := by
  induction m generalizing s with
  | zero => simp [advance]
  | succ m ih =>
    have h : m + 1 + n = (m + n) + 1 := by omega
    rw [h]
    exact ih (rand s).2

theorem draw_zero (rand : σ → Nat × σ) (s : σ) : draw rand s 0 = (rand s).1 := rfl

theorem draw_succ (rand : σ → Nat × σ) (s : σ) (i : Nat) :
    draw rand s (i + 1) = draw rand (rand s).2 i := rfl

/-- The bit that one iteration ORs into the accumulator. -/
theorem testBit_bit_shift (c : Prop) [Decidable c] (i b : Nat) (hi : i < 64) :
    (((if c then 1 else 0 : Nat) <<< i) % 2 ^ 64).testBit b = (decide (b = i) && decide c) := by
  rw [Nat.testBit_mod_two_pow, Nat.testBit_shiftLeft]
  by_cases hc : c
  · simp only [hc, if_true, decide_True, Bool.and_true]
    by_cases hb : b = i
    · subst hb; simp [hi]
    · by_cases hbi : b ≥ i
      · have h0 : b - i ≠ 0 := by omega
        have h1 : Nat.testBit 1 (b - i) = false := by
          cases h : Nat.testBit 1 (b - i) with
          | false => rfl
          | true => exact absurd (Nat.testBit_one_eq_true_iff_self_eq_zero.mp h) h0
        simp [hb, hbi, h1]
      · simp [hb, hbi]
  · simp [hc]

/-- The loop leaves the generator advanced by one draw per iteration. -/
theorem randbits_loop_state (rand : σ → Nat × σ) (T : Int) (k i result : Nat) (s : σ) :
    (randbits_loop rand T k i result s).2 = advance rand k s := by
  induction k generalizing i result s with
  | zero => rfl
  | succ k ih => exact ih _ _ _

/-- Bit `b` of the loop's result: it was set in the accumulator already, or it is one of
the positions `i, ..., i + k - 1` the loop visits and the draw made for it is below the
threshold. -/
theorem randbits_loop_testBit (rand : σ → Nat × σ) (T : Int) (k i result : Nat) (s : σ)
    (b : Nat) (hk : i + k ≤ 64) :
    (randbits_loop rand T k i result s).1.testBit b =
      (result.testBit b ||
        (decide (i ≤ b) && decide (b < i + k) && decide ((draw rand s (b - i) : Int) < T))) := by
  induction k generalizing i result s with
  | zero =>
    by_cases h1 : i ≤ b <;> simp [randbits_loop, h1]
  | succ k ih =>
    have hi : i < 64 := by omega
    have hk2 : (i + 1) + k ≤ 64 := by omega
    show (randbits_loop rand T k (i + 1) _ (rand s).2).1.testBit b = _
    rw [ih (i + 1) _ (rand s).2 hk2, Nat.testBit_or, testBit_bit_shift _ i b hi]
    by_cases hb : b = i
    · subst hb
      simp [draw_zero]
    · by_cases hle : i ≤ b
      · have h1 : i + 1 ≤ b := by omega
        have h2 : b - i = (b - (i + 1)) + 1 := by omega
        have h3 : (b < i + 1 + k) = (b < i + (k + 1)) := by
          apply propext; constructor <;> intro h <;> omega
        rw [h2, draw_succ]
        simp [hb, hle, h1, h3]
      · have h1 : ¬ (i + 1 ≤ b) := by omega
        simp [hb, hle, h1]

/-- Bit `b` of the value `randbits` returns, for a bit count within `0..64`. -/
theorem randbits_testBit (P : Platform) (rand : σ → Nat × σ) (p1 : F32) (num_bits : Int)
    (s : σ) (b : Nat) (h64 : num_bits ≤ 64) :
    (randbits P rand p1 num_bits s).1.testBit b =
      (decide (b < num_bits.toNat) && decide ((draw rand s b : Int) < threshold P p1)) := by
  have hk : 0 + num_bits.toNat ≤ 64 := by omega
  unfold randbits
  rw [randbits_loop_testBit rand _ _ 0 0 s b hk]
  simp

/-- The number with bit `i` set exactly for the `i < n` satisfying `c`. -/
theorem bitSum_lt (c : Nat → Prop) [DecidablePred c] (n : Nat) :
    (∑ i in Finset.range n, if c i then 2 ^ i else 0) < 2 ^ n := by
  induction n with
  | zero => simp
  | succ n ih =>
    rw [Finset.sum_range_succ, Nat.pow_succ]
    by_cases h : c n <;> simp only [h, if_true, if_false] <;> omega

theorem testBit_bitSum (c : Nat → Prop) [DecidablePred c] (n b : Nat) :
    (∑ i in Finset.range n, if c i then 2 ^ i else 0).testBit b
      = (decide (b < n) && decide (c b)) := by
  induction n with
  | zero => simp
  | succ n ih =>
    rw [Finset.sum_range_succ]
    have hlt := bitSum_lt c n
    by_cases h : c n
    · simp only [h, if_true]
      rw [Nat.add_comm]
      by_cases hb : b = n
      · subst hb
        rw [Nat.testBit_two_pow_add_eq, Nat.testBit_lt_two_pow hlt]
        simp [h]
      · by_cases hbn : b < n
        · rw [Nat.testBit_two_pow_add_gt hbn, ih]
          have : b < n + 1 := by omega
          simp [hbn, this]
        · have h1 : ¬ b < n + 1 := by omega
          have h2 : n < b := by omega
          have h3 : 2 ^ n + (∑ i in Finset.range n, if c i then 2 ^ i else 0) < 2 ^ b := by
            have : 2 ^ (n + 1) ≤ 2 ^ b := Nat.pow_le_pow_right (by decide) h2
            rw [Nat.pow_succ] at this
            omega
          rw [Nat.testBit_lt_two_pow h3]
          simp [h1]
    · simp only [h, if_false, Nat.add_zero]
      rw [ih]
      by_cases hb : b = n
      · subst hb; simp [h]
      · have : (b < n + 1) = (b < n) := by
          apply propext; constructor <;> intro h' <;> omega
        simp [this]

/-- The value `randbits` returns is the sum of the powers `2 ^ i` over the positions
`i < num_bits` whose draw is below the threshold. -/
theorem randbits_eq_bitSum (P : Platform) (rand : σ → Nat × σ) (p1 : F32) (num_bits : Int)
    (s : σ) (h64 : num_bits ≤ 64) :
    (randbits P rand p1 num_bits s).1 =
      ∑ i in Finset.range num_bits.toNat,
        if (draw rand s i : Int) < threshold P p1 then 2 ^ i else 0 := by
  apply Nat.eq_of_testBit_eq
  intro b
  rw [randbits_testBit P rand p1 num_bits s b h64, testBit_bitSum]

theorem randbits_state (P : Platform) (rand : σ → Nat × σ) (p1 : F32) (num_bits : Int)
    (s : σ) : (randbits P rand p1 num_bits s).2 = advance rand num_bits.toNat s :=
  randbits_loop_state rand _ _ 0 0 s

theorem randbits_lt (P : Platform) (rand : σ → Nat × σ) (p1 : F32) (num_bits : Int)
    (s : σ) (h64 : num_bits ≤ 64) :
    (randbits P rand p1 num_bits s).1 < 2 ^ num_bits.toNat := by
  rw [randbits_eq_bitSum P rand p1 num_bits s h64]
  exact bitSum_lt _ _

end Loop

/-! ## Lemmas on the threshold -/

section Threshold

theorem bitLengthAux_le (fuel m n : Nat) (h : m < 2 ^ n) : F32.bitLengthAux fuel m ≤ n := by
  induction fuel generalizing m n with
  | zero => simp [F32.bitLengthAux]
  | succ fuel ih =>
    unfold F32.bitLengthAux
    by_cases hm : m = 0
    · simp [hm]
    · simp only [hm, if_false]
      cases n with
      | zero => simp at h; exact absurd h hm
      | succ n =>
        have h2 : m / 2 < 2 ^ n := by
          rw [Nat.pow_succ] at h
          omega
        have := ih (m / 2) n h2
        omega

/-- Rounding a magnitude below `2 ^ 31` does not overflow. -/
theorem roundMag_ne_none (m : Nat) (h : m < 2 ^ 31) : F32.roundMag m 0 ≠ none := by
  unfold F32.roundMag
  by_cases hm : m = 0
  · simp [hm]
  · have hb : F32.bitLength m ≤ 31 := bitLengthAux_le m m 31 h
    have hq : F32.ulpExp m 0 ≤ 7 := by
      unfold F32.ulpExp
      omega
    simp only [hm, if_false]
    generalize F32.roundUnits m 0 (F32.ulpExp m 0) = t
    have hq2 : ¬ (104 < if t = 2 ^ 24 then F32.ulpExp m 0 + 1 else F32.ulpExp m 0) := by
      split <;> omega
    rw [if_neg hq2]
    exact Option.some_ne_none _

/-- The threshold for `p1 = 0.0` is `0`. -/
theorem threshold_zero (P : Platform) (hR : P.RAND_MAX ≤ 2147483647) :
    threshold P F32.zero = 0 := by
  have hlt : P.RAND_MAX < 2 ^ 31 := by omega
  have hne := roundMag_ne_none P.RAND_MAX hlt
  unfold threshold F32.ofInt F32.round
  have h1 : (P.RAND_MAX : Int).natAbs = P.RAND_MAX := by simp
  rw [h1]
  cases hr : F32.roundMag P.RAND_MAX 0 with
  | none => exact absurd hr hne
  | some v =>
    obtain ⟨m, q⟩ := v
    simp [F32.mul, F32.zero, F32.round, F32.roundMag, castInt, F32.toInt?, F32.INT_MIN,
      F32.INT_MAX]

end Threshold

/-! ## Order of the thresholds -/

section ThresholdOrder

theorem toInt?_round_nonneg (M : Nat) (E : Int) (v : Int)
    (h : F32.toInt? (F32.round false M E) = some v) : 0 ≤ v := by
  unfold F32.round at h
  cases hr : F32.roundMag M E with
  | none =>
    rw [hr] at h
    simp [F32.toInt?] at h
  | some w =>
    obtain ⟨t, q⟩ := w
    rw [hr] at h
    simp only at h
    rw [toInt?_units t q (min q 0) (min_le_left _ _) (min_le_right _ _)] at h
    split at h
    · rw [← Option.some.inj h]
      exact Int.ofNat_zero_le _
    · exact absurd h (by simp)

theorem toInt?_round_zero (neg : Bool) (E : Int) :
    F32.toInt? (F32.round neg 0 E) = some 0 := by
  cases neg <;> simp [F32.round, F32.roundMag, F32.toInt?, F32.INT_MIN, F32.INT_MAX]

/-- The conversion `(float)RAND_MAX` yields a non-negative finite value. -/
theorem ofInt_RAND_MAX_fin (R : Nat) (hR : R ≤ 2147483647) :
    ∃ m e, F32.ofInt (R : Int) = F32.fin false m e := by
  have hne := roundMag_ne_none R (by omega)
  unfold F32.ofInt F32.round
  have h1 : ((R : Int)).natAbs = R := by simp
  have h2 : decide ((R : Int) < 0) = false := by simp
  rw [h1, h2]
  cases hr : F32.roundMag R 0 with
  | none => exact absurd hr hne
  | some w => exact ⟨w.1, w.2, rfl⟩

theorem castInt_of_toInt? (P : Platform) (x : F32) (v : Int) (h : F32.toInt? x = some v) :
    castInt P x = v := by
  simp [castInt, h]

/-- The threshold is monotone in the probability as long as the conversion to `int` is
defined: for `p ≤ q` in `[0, 1]`, if the product `q * (float)RAND_MAX` has an integral part
that an `int` represents, so has the product for `p`, and `0 ≤ threshold p ≤ threshold q`. -/
theorem threshold_mono (P : Platform) (hR : P.RAND_MAX ≤ 2147483647) (p q : F32)
    (hp : p.inUnit) (hq : q.inUnit) (hpq : p.toRat ≤ q.toRat)
    (hrep : F32.toInt? (F32.mul q (F32.ofInt P.RAND_MAX)) ≠ none) :
    F32.toInt? (F32.mul p (F32.ofInt P.RAND_MAX)) ≠ none ∧
    0 ≤ threshold P p ∧ threshold P p ≤ threshold P q := by
  obtain ⟨mR, eR, hRf⟩ := ofInt_RAND_MAX_fin P.RAND_MAX hR
  unfold threshold
  rw [hRf] at hrep ⊢
  cases p with
  | nan => exact absurd hp (by simp [F32.inUnit])
  | inf s => exact absurd hp (by simp [F32.inUnit])
  | fin sp mp ep =>
  cases q with
  | nan => exact absurd hq (by simp [F32.inUnit])
  | inf s => exact absurd hq (by simp [F32.inUnit])
  | fin sq mq eq =>
  obtain ⟨hsp, _⟩ := hp
  obtain ⟨hsq, _⟩ := hq
  simp only [F32.mul, Bool.xor_false] at hrep ⊢
  obtain ⟨v₂, hv₂⟩ := Option.ne_none_iff_exists'.mp hrep
  have hq0 : 0 ≤ v₂ := by
    by_cases hmq : mq * mR = 0
    · rw [hmq, toInt?_round_zero] at hv₂
      rw [← Option.some.inj hv₂]
    · have hmq0 : mq ≠ 0 := fun h => hmq (by rw [h, Nat.zero_mul])
      have hs : sq = false := by
        rcases hsq with h | h
        · exact h
        · exact absurd h hmq0
      subst hs
      exact toInt?_round_nonneg _ _ _ hv₂
  rw [castInt_of_toInt? P _ v₂ hv₂]
  by_cases hmp : mp * mR = 0
  · rw [hmp, castInt_of_toInt? P _ 0 (toInt?_round_zero _ _), toInt?_round_zero]
    exact ⟨Option.some_ne_none _, le_refl _, hq0⟩
  · have hmp0 : mp ≠ 0 := fun h => hmp (by rw [h, Nat.zero_mul])
    have hmR0 : mR ≠ 0 := fun h => hmp (by rw [h, Nat.mul_zero])
    have hs : sp = false := by
      rcases hsp with h | h
      · exact h
      · exact absurd h hmp0
    subst hs
    have hppos : (0 : ℚ) < (mp : ℚ) * (2 : ℚ) ^ ep := by
      have : (0 : ℚ) < (mp : ℚ) := by exact_mod_cast Nat.pos_of_ne_zero hmp0
      positivity
    simp only [F32.toRat, Bool.false_eq_true, if_false, one_mul] at hpq
    have hs2 : sq = false := by
      cases sq
      · rfl
      · exfalso
        simp only [if_true] at hpq
        have : (0 : ℚ) ≤ (mq : ℚ) * (2 : ℚ) ^ eq := by positivity
        linarith
    subst hs2
    simp only [Bool.false_eq_true, if_false, one_mul] at hpq
    have hle : ((mp * mR : Nat) : ℚ) * (2 : ℚ) ^ (ep + eR)
        ≤ ((mq * mR : Nat) : ℚ) * (2 : ℚ) ^ (eq + eR) := by
      have h2 : (2 : ℚ) ≠ 0 := by norm_num
      have hRpos : (0 : ℚ) ≤ (mR : ℚ) * (2 : ℚ) ^ eR := by positivity
      have e1 : ((mp * mR : Nat) : ℚ) * (2 : ℚ) ^ (ep + eR)
          = ((mp : ℚ) * (2 : ℚ) ^ ep) * ((mR : ℚ) * (2 : ℚ) ^ eR) := by
        rw [zpow_add₀ h2]; push_cast; ring
      have e2 : ((mq * mR : Nat) : ℚ) * (2 : ℚ) ^ (eq + eR)
          = ((mq : ℚ) * (2 : ℚ) ^ eq) * ((mR : ℚ) * (2 : ℚ) ^ eR) := by
        rw [zpow_add₀ h2]; push_cast; ring
      rw [e1, e2]
      exact mul_le_mul_of_nonneg_right hpq hRpos
    obtain ⟨v₁, hv₁, h0, h12⟩ := round_toInt_mono _ _ _ _ hmp hle v₂ hv₂
    rw [hv₁, castInt_of_toInt? P _ v₁ hv₁]
    exact ⟨Option.some_ne_none _, h0, h12⟩

theorem toInt?_range (x : F32) (v : Int) (h : F32.toInt? x = some v) :
    -2147483648 ≤ v ∧ v ≤ 2147483647 := by
  cases x with
  | nan => simp [F32.toInt?] at h
  | inf s => simp [F32.toInt?] at h
  | fin neg m e =>
    simp only [F32.toInt?, F32.INT_MIN, F32.INT_MAX, Option.ite_none_right_eq_some,
      Option.some.injEq] at h
    obtain ⟨hr, rfl⟩ := h
    exact hr

/-- A binary32 value below `1` is at most `1 - 2^(-24)`, the largest such value. -/
theorem toRat_le_pred_one (p : F32) (hw : p.wf) (h1 : p.toRat < 1) :
    p.toRat ≤ (F32.fin false 16777215 (-24)).toRat := by
  have hpred : (F32.fin false 16777215 (-24)).toRat = 16777215 / 16777216 := by
    norm_num [F32.toRat, zpow_neg]
  rw [hpred]
  cases p with
  | nan => norm_num [F32.toRat]
  | inf s => norm_num [F32.toRat]
  | fin neg m e =>
    obtain ⟨hm, he, _⟩ := hw
    cases neg
    · simp only [F32.toRat, Bool.false_eq_true, if_false, one_mul] at h1 ⊢
      rcases le_or_lt e (-25) with hlow | hhigh
      · have h2 : (2 : ℚ) ^ e ≤ (2 : ℚ) ^ (-25 : Int) :=
          zpow_le_zpow_right₀ (by norm_num) hlow
        have hmq : (m : ℚ) ≤ 16777216 := by exact_mod_cast Nat.le_of_lt hm
        have h3 : (m : ℚ) * (2 : ℚ) ^ e ≤ 16777216 * (2 : ℚ) ^ (-25 : Int) :=
          mul_le_mul hmq h2 (by positivity) (by norm_num)
        have h4 : (16777216 : ℚ) * (2 : ℚ) ^ (-25 : Int) = 1 / 2 := by
          norm_num [zpow_neg]
        rw [h4] at h3
        linarith
      · obtain ⟨j, hj⟩ := Int.eq_ofNat_of_zero_le (show 0 ≤ e + 24 by omega)
        have he2 : e = (j : Int) + (-24) := by omega
        have hz : (2 : ℚ) ^ e = (2 : ℚ) ^ j / 16777216 := by
          rw [he2, zpow_add₀ (by norm_num : (2 : ℚ) ≠ 0), zpow_natCast]
          norm_num [zpow_neg]
          ring
        rw [hz] at h1 ⊢
        have h5 : (m : ℚ) * ((2 : ℚ) ^ j / 16777216) = ((m * 2 ^ j : Nat) : ℚ) / 16777216 := by
          push_cast; ring
        rw [h5] at h1 ⊢
        have h6 : ((m * 2 ^ j : Nat) : ℚ) < 16777216 := by
          have := (div_lt_one (by norm_num : (0 : ℚ) < 16777216)).mp h1
          exact this
        have h7 : m * 2 ^ j < 16777216 := by exact_mod_cast h6
        have h8 : ((m * 2 ^ j : Nat) : ℚ) ≤ 16777215 := by
          exact_mod_cast Nat.le_of_lt_succ h7
        exact div_le_div_of_nonneg_right h8 (by norm_num)
    · simp only [F32.toRat, if_true] at h1 ⊢
      have : (0 : ℚ) ≤ (m : ℚ) * (2 : ℚ) ^ e := by positivity
      linarith

/-- On glibc every binary32 probability in `[0, 1)` has a threshold whose conversion is
defined and lies in `0..RAND_MAX`. -/
theorem threshold_range_glibc (p : F32) (hw : p.wf) (hp : p.inUnit) (h1 : p.toRat < 1) :
    F32.toInt? (F32.mul p (F32.ofInt glibc_x86_64.RAND_MAX)) ≠ none ∧
    0 ≤ threshold glibc_x86_64 p ∧ threshold glibc_x86_64 p ≤ glibc_x86_64.RAND_MAX := by
  have hq : (F32.fin false 16777215 (-24)).inUnit := by decide
  have hrep : F32.toInt? (F32.mul (F32.fin false 16777215 (-24))
      (F32.ofInt glibc_x86_64.RAND_MAX)) ≠ none := by decide
  have hT : threshold glibc_x86_64 (F32.fin false 16777215 (-24)) = 2147483520 := by decide
  obtain ⟨h2, h3, h4⟩ := threshold_mono glibc_x86_64 (by decide) p _ hp hq
    (toRat_le_pred_one p hw h1) hrep
  rw [hT] at h4
  refine ⟨h2, h3, ?_⟩
  have : ((glibc_x86_64.RAND_MAX : Nat) : Int) = 2147483647 := rfl
  omega

/-- With `RAND_MAX = 32767` every probability in `[0, 1]` has a threshold whose conversion
is defined and lies in `0..RAND_MAX`. -/
theorem threshold_range_small (p : F32) (hp : p.inUnit) :
    F32.toInt? (F32.mul p (F32.ofInt msvcrt_x86_64.RAND_MAX)) ≠ none ∧
    0 ≤ threshold msvcrt_x86_64 p ∧ threshold msvcrt_x86_64 p ≤ msvcrt_x86_64.RAND_MAX := by
  have hq : F32.one.inUnit := by decide
  have hrep : F32.toInt? (F32.mul F32.one (F32.ofInt msvcrt_x86_64.RAND_MAX)) ≠ none := by
    decide
  have hT : threshold msvcrt_x86_64 F32.one = 32767 := by decide
  have hle : p.toRat ≤ F32.one.toRat := by
    have h1 : F32.one.toRat = 1 := by norm_num [F32.toRat, F32.one]
    rw [h1]
    cases p with
    | nan => exact absurd hp (by simp [F32.inUnit])
    | inf s => exact absurd hp (by simp [F32.inUnit])
    | fin neg m e => exact ((inUnit_iff_toRat neg m e).mp hp).2
  obtain ⟨h2, h3, h4⟩ := threshold_mono msvcrt_x86_64 (by decide) p _ hp hq hle hrep
  rw [hT] at h4
  exact ⟨h2, h3, h4⟩

end ThresholdOrder

/-! ## Lemmas on the validation -/

section Validation

variable {σ : Type}

/-- A value in `[0, 1]` passes neither of the two range tests of `func_randbits`. -/
theorem lt_zero_of_inUnit (p : F32) (h : p.inUnit) : F32.lt p F32.zero = false := by
  cases p with
  | nan => exact absurd h (by simp [F32.inUnit])
  | inf neg => exact absurd h (by simp [F32.inUnit])
  | fin neg m e =>
    obtain ⟨h1, _⟩ := h
    simp only [F32.lt, F32.zero, F32.scaled]
    rcases h1 with h1 | h1
    · subst h1; simp
    · subst h1; simp

theorem one_lt_of_inUnit (p : F32) (h : p.inUnit) : F32.lt F32.one p = false := by
  cases p with
  | nan => exact absurd h (by simp [F32.inUnit])
  | inf neg => exact absurd h (by simp [F32.inUnit])
  | fin neg m e =>
    obtain ⟨_, h2⟩ := h
    simp only [F32.lt, F32.one, F32.scaled]
    generalize hA : m * 2 ^ e.toNat = A at h2
    generalize hB : 2 ^ (-e).toNat = B at h2
    have hAB : (A : Int) ≤ B := by exact_mod_cast h2
    rcases Int.le_total 0 e with he | he
    · have hc : min (0 : Int) e = 0 := min_eq_left he
      have h0 : (-e).toNat = 0 := by omega
      rw [h0] at hB
      simp only [hc, Int.sub_zero, Int.toNat_zero, pow_zero, mul_one, hA]
      simp only [pow_zero] at hB
      subst hB
      cases neg <;> simp <;> omega
    · have hc : min (0 : Int) e = e := min_eq_right he
      have h0 : e.toNat = 0 := by omega
      have h1 : (0 - e).toNat = (-e).toNat := by simp
      rw [h0] at hA
      simp only [hc, h1, Int.sub_self, Int.toNat_zero, pow_zero, mul_one, one_mul, hB] at hA ⊢
      subst hA
      cases neg <;> simp <;> omega

/-- A datum that fails both range tests is a NaN or a value in `[0, 1]`. -/
theorem inUnit_of_tests (p : F32) (hnan : p ≠ F32.nan) (h0 : F32.lt p F32.zero = false)
    (h1 : F32.lt F32.one p = false) : p.inUnit := by
  cases p with
  | nan => exact absurd rfl hnan
  | inf neg => cases neg <;> simp [F32.lt, F32.zero, F32.one] at h0 h1
  | fin neg m e =>
    simp only [F32.lt, F32.zero, F32.one, F32.scaled] at h0 h1
    have hsign : neg = false ∨ m = 0 := by
      cases neg
      · exact Or.inl rfl
      · right
        by_contra hm
        have hpos : 0 < m * 2 ^ (e - min e 0).toNat := by positivity
        simp at h0
        omega
    refine ⟨hsign, ?_⟩
    rcases hsign with hs | hs
    swap
    · subst hs; simp
    subst hs
    · rcases Int.le_total 0 e with he | he
      · have hc : min (0 : Int) e = 0 := min_eq_left he
        have h2 : (-e).toNat = 0 := by omega
        simp only [hc, Int.sub_zero, Int.toNat_zero, pow_zero, mul_one] at h1
        rw [h2, pow_zero]
        generalize m * 2 ^ e.toNat = A at h1 ⊢
        simp at h1
        omega
      · have hc : min (0 : Int) e = e := min_eq_right he
        have h2 : e.toNat = 0 := by omega
        have h3 : (0 - e).toNat = (-e).toNat := by simp
        simp only [hc, h3, Int.sub_self, Int.toNat_zero, pow_zero, mul_one, one_mul] at h1
        rw [h2, pow_zero, mul_one]
        generalize 2 ^ (-e).toNat = B at h1 ⊢
        simp at h1
        omega

/-- On arguments that parsed, with `p1` in `[0, 1]` and `num_bits` in `0..64`,
`func_randbits` calls `randbits` and wraps its value. -/
theorem func_randbits_valid (P : Platform) (rand : σ → Nat × σ) (p1 : F32) (num_bits : Int)
    (w : World σ) (hp : p1.inUnit) (h0 : 0 ≤ num_bits) (h64 : num_bits ≤ 64) :
    func_randbits P rand (some (p1, num_bits)) w =
      (PyObject.Long (randbits P rand p1 num_bits w.rng).1,
        ⟨(randbits P rand p1 num_bits w.rng).2, w.stdout⟩) := by
  have hn : ¬ (num_bits < 0 ∨ 64 < num_bits) := by omega
  simp [func_randbits, lt_zero_of_inUnit p1 hp, one_lt_of_inUnit p1 hp, hn]

/-- For a `p1` that is not a NaN, `func_randbits` returns `None` exactly when `p1` is
outside `[0, 1]` or `num_bits` is outside `0..64`. -/
theorem func_randbits_none_iff (P : Platform) (rand : σ → Nat × σ) (p1 : F32)
    (num_bits : Int) (w : World σ) (hnan : p1 ≠ F32.nan) :
    (func_randbits P rand (some (p1, num_bits)) w).1 = PyObject.None ↔
      (¬ p1.inUnit ∨ num_bits < 0 ∨ 64 < num_bits) := by
  by_cases hp : p1.inUnit
  · by_cases hn : num_bits < 0 ∨ 64 < num_bits
    · simp [func_randbits, lt_zero_of_inUnit p1 hp, one_lt_of_inUnit p1 hp, hn]
    · have h0 : 0 ≤ num_bits := by omega
      have h64 : num_bits ≤ 64 := by omega
      rw [func_randbits_valid P rand p1 num_bits w hp h0 h64]
      simp [hp, hn]
  · have ht : (F32.lt p1 F32.zero || F32.lt F32.one p1) = true := by
      cases h0 : F32.lt p1 F32.zero with
      | true => rfl
      | false =>
        cases h1 : F32.lt F32.one p1 with
        | true => rfl
        | false => exact absurd (inUnit_of_tests p1 hnan h0 h1) hp
    simp [func_randbits, ht, hp]

/-- A NaN passes both range tests: with `num_bits` in `0..64` the call reaches `randbits`
and returns an integer object. -/
theorem func_randbits_nan (P : Platform) (rand : σ → Nat × σ) (num_bits : Int)
    (w : World σ) (h0 : 0 ≤ num_bits) (h64 : num_bits ≤ 64) :
    (func_randbits P rand (some (F32.nan, num_bits)) w).1 =
      PyObject.Long (randbits P rand F32.nan num_bits w.rng).1 := by
  have hn : ¬ (num_bits < 0 ∨ 64 < num_bits) := by omega
  have h1 : F32.lt F32.nan F32.zero = false := rfl
  have h2 : F32.lt F32.one F32.nan = false := rfl
  simp [func_randbits, h1, h2, hn]

end Validation

/-! ## The value returned -/

section Results

variable {σ : Type}

/-- C1, refuted as stated. With glibc's `RAND_MAX = 2^31 - 1`, `p = 0.5` and the draw
`1073741823 = floor(0.5 * RAND_MAX)`, the code sets bit 0 (its threshold is `2^30`, since
`(float)RAND_MAX` is `2^31`), while the sum over the draws below `floor(p * MAX)` is `0`.
With `RAND_MAX = 32767`, which converts exactly, and `p = 8388864 * 2^-38` (the `float`
nearest to `1/32767`), the product `0.99999999907` rounds to `1.0f`: the code's threshold
is `1` and the draw `0` sets bit 0, while `floor(p * MAX) = 0`. -/
theorem randbits_ne_floorThreshold_sum :
    (F32.half.wf ∧ F32.half.inUnit ∧
      (randbits glibc_x86_64 replay F32.half 1 [1073741823]).1 = 1 ∧
      (∑ i in Finset.range 1,
        if (draw replay [1073741823] i : Int) < floorThreshold glibc_x86_64 F32.half
        then 2 ^ i else 0) = 0) ∧
    ((F32.fin false 8388864 (-38)).wf ∧ (F32.fin false 8388864 (-38)).inUnit ∧
      (randbits msvcrt_x86_64 replay (F32.fin false 8388864 (-38)) 1 [0]).1 = 1 ∧
      (∑ i in Finset.range 1,
        if (draw replay [0] i : Int)
            < floorThreshold msvcrt_x86_64 (F32.fin false 8388864 (-38))
        then 2 ^ i else 0) = 0) := by
  have hfl : floorThreshold glibc_x86_64 F32.half = 1073741823 := by
    unfold floorThreshold
    rw [Int.floor_eq_iff]
    norm_num [F32.toRat, F32.half, glibc_x86_64]
  have hfl2 : floorThreshold msvcrt_x86_64 (F32.fin false 8388864 (-38)) = 0 := by
    unfold floorThreshold
    rw [Int.floor_eq_iff]
    norm_num [F32.toRat, msvcrt_x86_64]
  rw [hfl, hfl2]
  refine ⟨⟨by decide, by decide, by decide, by decide⟩,
    ⟨by decide, by decide, by decide, by decide⟩⟩

/-- C1 (amended): for every bit count up to 64 and every generator state, `randbits`
returns the integer whose bit `i`, for `i < num_bits`, is 1 exactly when the `i`-th draw is
strictly below the threshold `(int)(p1 * RAND_MAX)` the code computes once in single
precision, and 0 otherwise: the result is the sum over `i < num_bits` of `2 ^ i` for the
draws below that threshold. -/
theorem randbits_eq_sum_below_threshold (P : Platform) (rand : σ → Nat × σ) (p1 : F32)
    (num_bits : Int) (s : σ) (h64 : num_bits ≤ 64) :
    (randbits P rand p1 num_bits s).1 =
      ∑ i in Finset.range num_bits.toNat,
        if (draw rand s i : Int) < threshold P p1 then 2 ^ i else 0 :=
  randbits_eq_bitSum P rand p1 num_bits s h64

theorem randbits_eq_sum_below_threshold_witness :
    (3 : Int) ≤ 64 ∧
    (randbits glibc_x86_64 replay F32.half 3 [5, 2000000000, 7]).1 =
      ∑ i in Finset.range (3 : Int).toNat,
        if (draw replay [5, 2000000000, 7] i : Int) < threshold glibc_x86_64 F32.half
        then 2 ^ i else 0 :=
  ⟨by decide,
    randbits_eq_sum_below_threshold glibc_x86_64 replay F32.half 3 [5, 2000000000, 7]
      (by decide)⟩

/-- C2: for `p1` in `[0, 1]` and `num_bits` in `0..64`, the call returns an integer
object whose value is below `2 ^ num_bits` (hence below `2 ^ 64`) and has every bit at a
position `i ≥ num_bits` clear. -/
theorem func_randbits_high_bits_clear (P : Platform) (rand : σ → Nat × σ) (p1 : F32)
    (num_bits : Int) (w : World σ) (hp : p1.inUnit) (h0 : 0 ≤ num_bits)
    (h64 : num_bits ≤ 64) :
    ∃ r, (func_randbits P rand (some (p1, num_bits)) w).1 = PyObject.Long r ∧
      r < 2 ^ num_bits.toNat ∧ r < 2 ^ 64 ∧
      ∀ i : Nat, num_bits ≤ i → r.testBit i = false := by
  refine ⟨(randbits P rand p1 num_bits w.rng).1, ?_, ?_, ?_, ?_⟩
  · rw [func_randbits_valid P rand p1 num_bits w hp h0 h64]
  · exact randbits_lt P rand p1 num_bits w.rng h64
  · have h1 := randbits_lt P rand p1 num_bits w.rng h64
    have h2 : num_bits.toNat ≤ 64 := by omega
    exact Nat.lt_of_lt_of_le h1 (Nat.pow_le_pow_right (by decide) h2)
  · intro i hi
    rw [randbits_testBit P rand p1 num_bits w.rng i h64]
    have : ¬ i < num_bits.toNat := by omega
    simp [this]

theorem func_randbits_high_bits_clear_witness :
    F32.half.inUnit ∧ (0 : Int) ≤ 3 ∧ (3 : Int) ≤ 64 ∧
    ∃ r, (func_randbits glibc_x86_64 replay (some (F32.half, 3))
          ⟨[5, 2000000000, 7], []⟩).1 = PyObject.Long r ∧
      r < 2 ^ (3 : Int).toNat ∧ r < 2 ^ 64 ∧
      ∀ i : Nat, (3 : Int) ≤ i → r.testBit i = false :=
  ⟨by decide, by decide, by decide,
    func_randbits_high_bits_clear glibc_x86_64 replay F32.half 3 ⟨[5, 2000000000, 7], []⟩
      (by decide) (by decide) (by decide)⟩

/-- C3, the code at the failing input: a NaN is not a value in `[0, 1]`, yet
`func_randbits(NaN, 10)` does not return `None`: both comparisons with a NaN are false, the
call reaches `randbits`, and (on glibc/x86-64, where the invalid conversion of the NaN
threshold gives `INT_MIN`) returns the integer `0`. The four rejections the claim lists do
return `None`: `p1 = -0.1f`, `p1 = 1.5f`, `num_bits = 65` and `num_bits = -1`. -/
theorem func_randbits_nan_not_rejected :
    ¬ F32.nan.inUnit ∧
    (func_randbits glibc_x86_64 replay (some (F32.nan, 10)) ⟨[1, 2, 3], []⟩).1
      = PyObject.Long 0 ∧
    (func_randbits glibc_x86_64 replay (some (F32.fin true 13421773 (-27), 10))
      ⟨[1, 2, 3], []⟩).1 = PyObject.None ∧
    (func_randbits glibc_x86_64 replay (some (F32.fin false 3 (-1), 10))
      ⟨[1, 2, 3], []⟩).1 = PyObject.None ∧
    (func_randbits glibc_x86_64 replay (some (F32.half, 65)) ⟨[1, 2, 3], []⟩).1
      = PyObject.None ∧
    (func_randbits glibc_x86_64 replay (some (F32.half, -1)) ⟨[1, 2, 3], []⟩).1
      = PyObject.None := by
  refine ⟨by decide, by decide, by decide, by decide, by decide, by decide⟩

/-- On glibc/x86-64 the threshold for `p1 = 1.0` is `INT_MIN`, so `randbits(1.0, n)` is
`0` whatever the draws. -/
theorem randbits_one_glibc (rand : σ → Nat × σ) (num_bits : Int) (s : σ)
    (h64 : num_bits ≤ 64) : (randbits glibc_x86_64 rand F32.one num_bits s).1 = 0 := by
  have hT : threshold glibc_x86_64 F32.one = -2147483648 := by decide
  apply Nat.eq_of_testBit_eq
  intro b
  rw [randbits_testBit glibc_x86_64 rand F32.one num_bits s b h64, hT]
  have : ¬ ((draw rand s b : Int) < -2147483648) := by omega
  simp [this]

/-- C4, the code at the failing input: for `p1 = 1.0`, `num_bits = 1` and a draw equal to
`RAND_MAX` the call returns `0`, not `(1 << 1) - 1 = 1`. With glibc's `RAND_MAX = 2^31 - 1`
the product `1.0f * (float)RAND_MAX` is `2^31`, which no `int` holds, so the threshold is
the invalid-conversion value; with `RAND_MAX = 32767` the threshold is `32767` and the
draw `32767` is not strictly below it. -/
theorem func_randbits_one_not_all_ones :
    F32.one.wf ∧ F32.one.inUnit ∧
    (func_randbits glibc_x86_64 replay (some (F32.one, 1)) ⟨[2147483647], []⟩).1
      = PyObject.Long 0 ∧
    (func_randbits msvcrt_x86_64 replay (some (F32.one, 1)) ⟨[32767], []⟩).1
      = PyObject.Long 0 ∧
    (1 <<< 1) - 1 = 1 := by
  refine ⟨by decide, by decide, by decide, by decide, by decide⟩

/-- C5: for `p1 = 0.0` and `num_bits` in `0..64` the call returns the integer `0`,
whatever the generator and its state (on any platform whose `RAND_MAX` is an `int`). -/
theorem func_randbits_zero (P : Platform) (rand : σ → Nat × σ) (num_bits : Int)
    (w : World σ) (hR : P.RAND_MAX ≤ 2147483647) (h0 : 0 ≤ num_bits)
    (h64 : num_bits ≤ 64) :
    (func_randbits P rand (some (F32.zero, num_bits)) w).1 = PyObject.Long 0 := by
  rw [func_randbits_valid P rand F32.zero num_bits w (by decide) h0 h64]
  show PyObject.Long _ = PyObject.Long 0
  congr 1
  apply Nat.eq_of_testBit_eq
  intro b
  rw [randbits_testBit P rand F32.zero num_bits w.rng b h64, threshold_zero P hR]
  have : ¬ ((draw rand w.rng b : Int) < 0) := by omega
  simp [this]

theorem func_randbits_zero_witness :
    glibc_x86_64.RAND_MAX ≤ 2147483647 ∧ (0 : Int) ≤ 3 ∧ (3 : Int) ≤ 64 ∧
    (func_randbits glibc_x86_64 replay (some (F32.zero, 3)) ⟨[0, 5, 2147483647], []⟩).1
      = PyObject.Long 0 :=
  ⟨by decide, by decide, by decide,
    func_randbits_zero glibc_x86_64 replay 3 ⟨[0, 5, 2147483647], []⟩
      (by decide) (by decide) (by decide)⟩

/-- C6: for every `p1` in `[0, 1]` and every generator state, a call with
`num_bits = 0` returns the integer `0`. -/
theorem func_randbits_no_bits (P : Platform) (rand : σ → Nat × σ) (p1 : F32)
    (w : World σ) (hp : p1.inUnit) :
    (func_randbits P rand (some (p1, 0)) w).1 = PyObject.Long 0 := by
  rw [func_randbits_valid P rand p1 0 w hp (by decide) (by decide)]
  rfl

theorem func_randbits_no_bits_witness :
    F32.one.inUnit ∧
    (func_randbits glibc_x86_64 replay (some (F32.one, 0)) ⟨[4, 5], []⟩).1
      = PyObject.Long 0 :=
  ⟨by decide, func_randbits_no_bits glibc_x86_64 replay F32.one ⟨[4, 5], []⟩ (by decide)⟩

/-- C7: for `p1` in `[0, 1]` and `num_bits` in `0..64` the call returns (the embedding is
a total function) and leaves the generator in the state reached from the initial one by
exactly `num_bits` draws; the `i`-th of these draws decides bit `i` of the result. -/
theorem func_randbits_consumes_num_bits (P : Platform) (rand : σ → Nat × σ) (p1 : F32)
    (num_bits : Int) (w : World σ) (hp : p1.inUnit) (h0 : 0 ≤ num_bits)
    (h64 : num_bits ≤ 64) :
    (func_randbits P rand (some (p1, num_bits)) w).2.rng = advance rand num_bits.toNat w.rng ∧
    ∃ r, (func_randbits P rand (some (p1, num_bits)) w).1 = PyObject.Long r ∧
      ∀ i : Nat, i < num_bits.toNat →
        r.testBit i = decide ((draw rand w.rng i : Int) < threshold P p1) := by
  rw [func_randbits_valid P rand p1 num_bits w hp h0 h64]
  refine ⟨randbits_state P rand p1 num_bits w.rng, _, rfl, ?_⟩
  intro i hi
  rw [randbits_testBit P rand p1 num_bits w.rng i h64]
  simp [hi]

theorem func_randbits_consumes_num_bits_witness :
    F32.half.inUnit ∧ (0 : Int) ≤ 2 ∧ (2 : Int) ≤ 64 ∧
    ((func_randbits glibc_x86_64 replay (some (F32.half, 2)) ⟨[5, 2000000000, 7], []⟩).2.rng
      = advance replay (2 : Int).toNat [5, 2000000000, 7] ∧
    ∃ r, (func_randbits glibc_x86_64 replay (some (F32.half, 2))
        ⟨[5, 2000000000, 7], []⟩).1 = PyObject.Long r ∧
      ∀ i : Nat, i < (2 : Int).toNat →
        r.testBit i
          = decide ((draw replay [5, 2000000000, 7] i : Int) < threshold glibc_x86_64 F32.half)) :=
  ⟨by decide, by decide, by decide,
    func_randbits_consumes_num_bits glibc_x86_64 replay F32.half 2 ⟨[5, 2000000000, 7], []⟩
      (by decide) (by decide) (by decide)⟩

end Results

/-! ## The distribution of the result -/

section Distribution

/-- A one-bit call returns the outcome of the comparison of its draw with the threshold. -/
theorem randbits_one_draw (P : Platform) (p1 : F32) (d : Nat) :
    (randbits P replay p1 1 [d]).1 = if (d : Int) < threshold P p1 then 1 else 0 := by
  by_cases h : (d : Int) < threshold P p1 <;> simp [randbits, randbits_loop, replay, h]

theorem settingDraws_eq_range (P : Platform) (p1 : F32) :
    settingDraws P p1 = Finset.range (min (threshold P p1).toNat (P.RAND_MAX + 1)) := by
  ext d
  simp only [settingDraws, Finset.mem_filter, Finset.mem_range, randbits_one_draw]
  by_cases h : (d : Int) < threshold P p1
  · simp only [h, if_true]
    constructor
    · intro ⟨h1, _⟩
      exact lt_min (by omega) h1
    · intro h1
      exact ⟨lt_of_lt_of_le h1 (min_le_right _ _), trivial⟩
  · simp only [h, if_false]
    constructor
    · intro ⟨_, h1⟩
      exact absurd h1 (by decide)
    · intro h1
      have := lt_of_lt_of_le h1 (min_le_left _ _)
      omega

theorem settingDraws_card (P : Platform) (p1 : F32) :
    (settingDraws P p1).card = min (threshold P p1).toNat (P.RAND_MAX + 1) := by
  rw [settingDraws_eq_range, Finset.card_range]

/-- C8, refuted as stated. With glibc's `RAND_MAX` and `p = 0.5`, exactly half of the
`2^31` draw values set the bit, so the realized probability is `1/2`, whereas
`floor(p * MAX) / MAX` is `1073741823 / 2147483647`. With `RAND_MAX = 32767` and `p = 0.5`
the code's threshold is `floor(p * MAX) = 16383`, and the realized probability is
`16383 / 32768`, not `16383 / 32767`: the draw takes `MAX + 1` values. -/
theorem realizedProbability_ne_floor_ratio :
    (F32.half.wf ∧ F32.half.inUnit) ∧
    (realizedProbability glibc_x86_64 F32.half = 1 / 2 ∧
      (floorThreshold glibc_x86_64 F32.half : ℚ) / (glibc_x86_64.RAND_MAX : ℚ)
        = 1073741823 / 2147483647 ∧
      realizedProbability glibc_x86_64 F32.half ≠
        (floorThreshold glibc_x86_64 F32.half : ℚ) / (glibc_x86_64.RAND_MAX : ℚ)) ∧
    (realizedProbability msvcrt_x86_64 F32.half = 16383 / 32768 ∧
      (floorThreshold msvcrt_x86_64 F32.half : ℚ) / (msvcrt_x86_64.RAND_MAX : ℚ)
        = 16383 / 32767 ∧
      realizedProbability msvcrt_x86_64 F32.half ≠
        (floorThreshold msvcrt_x86_64 F32.half : ℚ) / (msvcrt_x86_64.RAND_MAX : ℚ)) := by
  have hfl : floorThreshold glibc_x86_64 F32.half = 1073741823 := by
    unfold floorThreshold
    rw [Int.floor_eq_iff]
    norm_num [F32.toRat, F32.half, glibc_x86_64]
  have hfl2 : floorThreshold msvcrt_x86_64 F32.half = 16383 := by
    unfold floorThreshold
    rw [Int.floor_eq_iff]
    norm_num [F32.toRat, F32.half, msvcrt_x86_64]
  have hT : threshold glibc_x86_64 F32.half = 1073741824 := by decide
  have hT2 : threshold msvcrt_x86_64 F32.half = 16383 := by decide
  have hR : glibc_x86_64.RAND_MAX = 2147483647 := rfl
  have hR2 : msvcrt_x86_64.RAND_MAX = 32767 := rfl
  have hp : realizedProbability glibc_x86_64 F32.half = 1 / 2 := by
    unfold realizedProbability
    have hN : (1073741824 : Int).toNat = 1073741824 := rfl
    rw [settingDraws_card, hT, hR, hN]
    norm_num
  have hp2 : realizedProbability msvcrt_x86_64 F32.half = 16383 / 32768 := by
    unfold realizedProbability
    have hN : (16383 : Int).toNat = 16383 := rfl
    rw [settingDraws_card, hT2, hR2, hN]
    norm_num
  refine ⟨⟨by decide, by decide⟩, ⟨hp, ?_, ?_⟩, ⟨hp2, ?_, ?_⟩⟩
  · rw [hfl, hR]; norm_num
  · rw [hp, hfl, hR]; norm_num
  · rw [hfl2, hR2]; norm_num
  · rw [hp2, hfl2, hR2]; norm_num

/-- C8 (amended): the number of draw values in `0..RAND_MAX` that set a bit is the
threshold `(int)(p1 * RAND_MAX)` the code computes, cut to the range `0..RAND_MAX + 1`, and
the realized probability of a set bit is that number divided by the `RAND_MAX + 1`
possible draw values. -/
theorem realizedProbability_eq (P : Platform) (p1 : F32) :
    (settingDraws P p1).card = min (threshold P p1).toNat (P.RAND_MAX + 1) ∧
    realizedProbability P p1 =
      ((min (threshold P p1).toNat (P.RAND_MAX + 1) : Nat) : ℚ) / ((P.RAND_MAX : ℚ) + 1) := by
  refine ⟨settingDraws_card P p1, ?_⟩
  unfold realizedProbability
  rw [settingDraws_card]
  push_cast
  rfl

theorem draw_replay (l : List Nat) (i : Nat) : draw replay l i = l.getD i 0 := by
  induction i generalizing l with
  | zero => cases l <;> rfl
  | succ i ih =>
    cases l with
    | nil =>
      rw [draw_succ]
      simpa [replay] using ih []
    | cons d ds =>
      rw [draw_succ]
      simpa [replay] using ih ds

theorem draw_replay_ofFn {n : Nat} (g : Fin n → Nat) (i : Fin n) :
    draw replay (List.ofFn g) i = g i := by
  have hi : (i : Nat) < (List.ofFn g).length := by simp
  rw [draw_replay, List.getD_eq_getElem _ _ hi, List.getElem_ofFn]

/-- The call returns `r` exactly when every draw falls on the side of the threshold that
the corresponding bit of `r` asks for. -/
theorem randbits_ofFn_eq_iff (P : Platform) (p1 : F32) (n r : Nat) (hn : n ≤ 64)
    (hr : r < 2 ^ n) (g : Fin n → Nat) :
    (randbits P replay p1 (n : Int) (List.ofFn g)).1 = r ↔
      ∀ i : Fin n, decide ((g i : Int) < threshold P p1) = r.testBit i := by
  have h64 : (n : Int) ≤ 64 := by omega
  constructor
  · intro h i
    rw [← h, randbits_testBit P replay p1 n _ i h64, draw_replay_ofFn]
    simp
  · intro h
    apply Nat.eq_of_testBit_eq
    intro b
    rw [randbits_testBit P replay p1 n _ b h64]
    by_cases hb : b < n
    · have := h ⟨b, hb⟩
      rw [← this, draw_replay_ofFn g ⟨b, hb⟩]
      simp [hb]
    · have h2 : r < 2 ^ b := lt_of_lt_of_le hr (Nat.pow_le_pow_right (by decide) (by omega))
      rw [Nat.testBit_lt_two_pow h2]
      simp [hb]

/-- Counting the draws of `Fin (RAND_MAX + 1)` below the threshold gives the size of
`settingDraws`. -/
theorem card_below_threshold (P : Platform) (p1 : F32) :
    (Finset.univ.filter
      (fun d : Fin (P.RAND_MAX + 1) => ((d : Nat) : Int) < threshold P p1)).card
      = (settingDraws P p1).card := by
  rw [Finset.card_filter, settingDraws, Finset.card_filter,
    Fin.sum_univ_eq_sum_range (fun d => if (d : Int) < threshold P p1 then 1 else 0)]
  apply Finset.sum_congr rfl
  intro d _
  rw [randbits_one_draw]
  by_cases h : (d : Int) < threshold P p1 <;> simp [h]

theorem card_not_below_threshold (P : Platform) (p1 : F32) :
    (Finset.univ.filter
      (fun d : Fin (P.RAND_MAX + 1) => ¬ ((d : Nat) : Int) < threshold P p1)).card
      = P.RAND_MAX + 1 - (settingDraws P p1).card := by
  have h := Finset.filter_card_add_filter_neg_card_eq_card
    (s := (Finset.univ : Finset (Fin (P.RAND_MAX + 1))))
    (fun d : Fin (P.RAND_MAX + 1) => ((d : Nat) : Int) < threshold P p1)
  rw [card_below_threshold, Finset.card_univ, Fintype.card_fin] at h
  omega

/-- The set bits of a value below `2 ^ n`, `n ≤ 64`, counted over the positions below `n`
give its Hamming weight. -/
theorem card_testBit_fin (n r : Nat) (hn : n ≤ 64) (hr : r < 2 ^ n) :
    (Finset.univ.filter (fun i : Fin n => r.testBit i = true)).card = hammingWeight r := by
  rw [Finset.card_filter, hammingWeight, Finset.card_filter,
    Fin.sum_univ_eq_sum_range (fun i => if r.testBit i = true then 1 else 0)]
  have hsub : Finset.range n ⊆ Finset.range 64 := Finset.range_subset.mpr hn
  apply Finset.sum_subset hsub
  intro i _ hi
  have hi2 : n ≤ i := by simpa using hi
  have h2 : r < 2 ^ i := lt_of_lt_of_le hr (Nat.pow_le_pow_right (by decide) hi2)
  simp [Nat.testBit_lt_two_pow h2]

theorem hammingWeight_le (n r : Nat) (hn : n ≤ 64) (hr : r < 2 ^ n) : hammingWeight r ≤ n := by
  rw [← card_testBit_fin n r hn hr]
  calc (Finset.univ.filter (fun i : Fin n => r.testBit i = true)).card
      ≤ (Finset.univ : Finset (Fin n)).card := Finset.card_filter_le _ _
    _ = n := by simp

/-- The number of draw sequences on which the call returns `r`. -/
theorem card_drawsGiving (P : Platform) (p1 : F32) (n r : Nat) (hn : n ≤ 64)
    (hr : r < 2 ^ n) :
    (drawsGiving P p1 n r).card =
      (settingDraws P p1).card ^ hammingWeight r *
        (P.RAND_MAX + 1 - (settingDraws P p1).card) ^ (n - hammingWeight r) := by
  have hset : drawsGiving P p1 n r =
      Fintype.piFinset (fun i : Fin n =>
        Finset.univ.filter (fun d : Fin (P.RAND_MAX + 1) =>
          decide (((d : Nat) : Int) < threshold P p1) = r.testBit i)) := by
    ext f
    simp only [drawsGiving, Finset.mem_filter, Finset.mem_univ, true_and,
      Fintype.mem_piFinset]
    exact randbits_ofFn_eq_iff P p1 n r hn hr (fun i => (f i : Nat))
  have hfac : ∀ i : Fin n,
      (Finset.univ.filter (fun d : Fin (P.RAND_MAX + 1) =>
          decide (((d : Nat) : Int) < threshold P p1) = r.testBit i)).card
        = if r.testBit i = true then (settingDraws P p1).card
          else P.RAND_MAX + 1 - (settingDraws P p1).card := by
    intro i
    by_cases hb : r.testBit i = true
    · rw [if_pos hb, ← card_below_threshold]
      congr 1
      ext d
      simp [hb]
    · rw [if_neg hb, ← card_not_below_threshold]
      have hb2 : r.testBit i = false := by simpa using hb
      congr 1
      ext d
      simp [hb2]
  have hneg : (Finset.univ.filter (fun i : Fin n => ¬ r.testBit i = true)).card
      = n - hammingWeight r := by
    have h := Finset.filter_card_add_filter_neg_card_eq_card
      (s := (Finset.univ : Finset (Fin n))) (fun i : Fin n => r.testBit i = true)
    rw [card_testBit_fin n r hn hr, Finset.card_univ, Fintype.card_fin] at h
    omega
  rw [hset, Fintype.card_piFinset, Finset.prod_congr rfl (fun i _ => hfac i),
    Finset.prod_ite, Finset.prod_const, Finset.prod_const, card_testBit_fin n r hn hr, hneg]

theorem settingDraws_card_le (P : Platform) (p1 : F32) :
    (settingDraws P p1).card ≤ P.RAND_MAX + 1 := by
  rw [settingDraws_card]
  exact min_le_right _ _

/-- C9: for every bit count `n ≤ 64` and every target `r < 2 ^ n`, among the
`(RAND_MAX + 1) ^ n` sequences of `n` draws in `0..RAND_MAX`, the number on which
`randbits(p1, n)` returns `r` is `t ^ k * (RAND_MAX + 1 - t) ^ (n - k)`, with `k` the
Hamming weight of `r` and `t` the number of single draw values that set a bit; so the
probability of `r` is `q ^ k * (1 - q) ^ (n - k)` for `q = t / (RAND_MAX + 1)`: the `n`
bits are independent and identically distributed. -/
theorem randbits_bits_iid (P : Platform) (p1 : F32) (n r : Nat) (hn : n ≤ 64)
    (hr : r < 2 ^ n) :
    (Finset.univ : Finset (Fin n → Fin (P.RAND_MAX + 1))).card = (P.RAND_MAX + 1) ^ n ∧
    (drawsGiving P p1 n r).card =
      (settingDraws P p1).card ^ hammingWeight r *
        (P.RAND_MAX + 1 - (settingDraws P p1).card) ^ (n - hammingWeight r) ∧
    ((drawsGiving P p1 n r).card : ℚ) / (((P.RAND_MAX + 1 : Nat) : ℚ) ^ n) =
      realizedProbability P p1 ^ hammingWeight r *
        (1 - realizedProbability P p1) ^ (n - hammingWeight r) := by
  have hk := hammingWeight_le n r hn hr
  have ht := settingDraws_card_le P p1
  refine ⟨by simp, card_drawsGiving P p1 n r hn hr, ?_⟩
  rw [card_drawsGiving P p1 n r hn hr]
  unfold realizedProbability
  generalize (settingDraws P p1).card = t at ht ⊢
  generalize hammingWeight r = k at hk ⊢
  have hN : P.RAND_MAX + 1 ≠ 0 := by omega
  generalize P.RAND_MAX + 1 = N at ht hN ⊢
  have hNq : (N : ℚ) ≠ 0 := by exact_mod_cast hN
  have hsub : (1 : ℚ) - (t : ℚ) / (N : ℚ) = ((N : ℚ) - t) / N := by
    field_simp
  have hn2 : n = k + (n - k) := by omega
  rw [hsub, div_pow, div_pow, div_mul_div_comm, ← pow_add, ← hn2]
  push_cast [Nat.cast_sub ht]
  rfl

theorem randbits_bits_iid_witness :
    (2 : Nat) ≤ 64 ∧ (1 : Nat) < 2 ^ 2 ∧
    ((Finset.univ : Finset (Fin 2 → Fin (msvcrt_x86_64.RAND_MAX + 1))).card
      = (msvcrt_x86_64.RAND_MAX + 1) ^ 2 ∧
    (drawsGiving msvcrt_x86_64 F32.half 2 1).card =
      (settingDraws msvcrt_x86_64 F32.half).card ^ hammingWeight 1 *
        (msvcrt_x86_64.RAND_MAX + 1 - (settingDraws msvcrt_x86_64 F32.half).card)
          ^ (2 - hammingWeight 1) ∧
    ((drawsGiving msvcrt_x86_64 F32.half 2 1).card : ℚ)
        / (((msvcrt_x86_64.RAND_MAX + 1 : Nat) : ℚ) ^ 2) =
      realizedProbability msvcrt_x86_64 F32.half ^ hammingWeight 1 *
        (1 - realizedProbability msvcrt_x86_64 F32.half) ^ (2 - hammingWeight 1)) :=
  ⟨by decide, by decide, randbits_bits_iid msvcrt_x86_64 F32.half 2 1 (by decide) (by decide)⟩

end Distribution

/-! ## Runs of calls -/

section Runs

variable {σ : Type}

/-- The object `func_randbits` returns and the generator state it leaves depend on the
state it starts from only through the generator state. -/
theorem func_randbits_congr (P : Platform) (rand : σ → Nat × σ) (a : Option (F32 × Int))
    (w₁ w₂ : World σ) (h : w₁.rng = w₂.rng) :
    (func_randbits P rand a w₁).1 = (func_randbits P rand a w₂).1 ∧
    (func_randbits P rand a w₁).2.rng = (func_randbits P rand a w₂).2.rng := by
  cases a with
  | none => exact ⟨rfl, h⟩
  | some v =>
    obtain ⟨p1, num_bits⟩ := v
    simp only [func_randbits]
    split
    · exact ⟨rfl, h⟩
    · split
      · exact ⟨rfl, h⟩
      · simp [h]

/-- C10: two runs of the same sequence of calls that start from the same generator
state return the same sequence of objects (integers and `None`s alike) and leave the
generator in the same state. -/
theorem runCalls_deterministic (P : Platform) (rand : σ → Nat × σ)
    (calls : List (Option (F32 × Int))) (w₁ w₂ : World σ) (h : w₁.rng = w₂.rng) :
    (runCalls P rand calls w₁).1 = (runCalls P rand calls w₂).1 ∧
    (runCalls P rand calls w₁).2.rng = (runCalls P rand calls w₂).2.rng := by
  induction calls generalizing w₁ w₂ with
  | nil => exact ⟨rfl, h⟩
  | cons a rest ih =>
    obtain ⟨h1, h2⟩ := func_randbits_congr P rand a w₁ w₂ h
    obtain ⟨h3, h4⟩ := ih (func_randbits P rand a w₁).2 (func_randbits P rand a w₂).2 h2
    simp only [runCalls]
    exact ⟨by rw [h1, h3], h4⟩

theorem runCalls_deterministic_witness :
    (⟨[5, 2000000000, 7, 9], []⟩ : World (List Nat)).rng
      = (⟨[5, 2000000000, 7, 9], ["earlier output"]⟩ : World (List Nat)).rng ∧
    ((runCalls glibc_x86_64 replay
        [some (F32.half, 2), some (F32.fin false 3 (-1), 4), some (F32.half, 1)]
        ⟨[5, 2000000000, 7, 9], []⟩).1
      = (runCalls glibc_x86_64 replay
        [some (F32.half, 2), some (F32.fin false 3 (-1), 4), some (F32.half, 1)]
        ⟨[5, 2000000000, 7, 9], ["earlier output"]⟩).1 ∧
    (runCalls glibc_x86_64 replay
        [some (F32.half, 2), some (F32.fin false 3 (-1), 4), some (F32.half, 1)]
        ⟨[5, 2000000000, 7, 9], []⟩).2.rng
      = (runCalls glibc_x86_64 replay
        [some (F32.half, 2), some (F32.fin false 3 (-1), 4), some (F32.half, 1)]
        ⟨[5, 2000000000, 7, 9], ["earlier output"]⟩).2.rng) :=
  ⟨rfl,
    runCalls_deterministic glibc_x86_64 replay
      [some (F32.half, 2), some (F32.fin false 3 (-1), 4), some (F32.half, 1)]
      ⟨[5, 2000000000, 7, 9], []⟩ ⟨[5, 2000000000, 7, 9], ["earlier output"]⟩ rfl⟩

/-- The objects a run returns and the generator state it ends in depend on the state it
starts from only through the generator state. -/
theorem runCalls_congr (P : Platform) (rand : σ → Nat × σ)
    (calls : List (Option (F32 × Int))) (w₁ w₂ : World σ) (h : w₁.rng = w₂.rng) :
    (runCalls P rand calls w₁).1 = (runCalls P rand calls w₂).1 ∧
    (runCalls P rand calls w₁).2.rng = (runCalls P rand calls w₂).2.rng := by
  induction calls generalizing w₁ w₂ with
  | nil => exact ⟨rfl, h⟩
  | cons a rest ih =>
    obtain ⟨h1, h2⟩ := func_randbits_congr P rand a w₁ w₂ h
    obtain ⟨h3, h4⟩ := ih (func_randbits P rand a w₁).2 (func_randbits P rand a w₂).2 h2
    simp only [runCalls]
    exact ⟨by rw [h1, h3], h4⟩

/-- A call that returns `None` leaves the generator as it found it. -/
theorem func_randbits_none_rng (P : Platform) (rand : σ → Nat × σ)
    (a : Option (F32 × Int)) (w : World σ)
    (h : (func_randbits P rand a w).1 = PyObject.None) :
    (func_randbits P rand a w).2.rng = w.rng := by
  cases a with
  | none => simp [func_randbits] at h
  | some v =>
    obtain ⟨p1, num_bits⟩ := v
    simp only [func_randbits] at h ⊢
    split
    · rfl
    · split
      · rfl
      · rename_i h1 h2
        simp [h1, h2] at h

/-- C12: a call of `func_randbits` that returns `None` consumes no draw: the generator
state after it is the state before it, and in a run that continues with further calls
these return the same objects, and leave the generator in the same state, as in the run
without the rejected call. -/
theorem func_randbits_rejection_atomic (P : Platform) (rand : σ → Nat × σ)
    (a : Option (F32 × Int)) (rest : List (Option (F32 × Int))) (w : World σ)
    (h : (func_randbits P rand a w).1 = PyObject.None) :
    (func_randbits P rand a w).2.rng = w.rng ∧
    (runCalls P rand (a :: rest) w).1 = PyObject.None :: (runCalls P rand rest w).1 ∧
    (runCalls P rand (a :: rest) w).2.rng = (runCalls P rand rest w).2.rng := by
  have hr := func_randbits_none_rng P rand a w h
  obtain ⟨h1, h2⟩ := runCalls_congr P rand rest (func_randbits P rand a w).2 w hr
  refine ⟨hr, ?_, ?_⟩
  · simp only [runCalls]
    rw [h, h1]
  · simp only [runCalls]
    exact h2

theorem func_randbits_rejection_atomic_witness :
    (func_randbits glibc_x86_64 replay (some (F32.half, 65)) ⟨[5, 2000000000, 7], []⟩).1
      = PyObject.None ∧
    ((func_randbits glibc_x86_64 replay (some (F32.half, 65))
        ⟨[5, 2000000000, 7], []⟩).2.rng = [5, 2000000000, 7] ∧
    (runCalls glibc_x86_64 replay [some (F32.half, 65), some (F32.half, 2)]
        ⟨[5, 2000000000, 7], []⟩).1
      = PyObject.None ::
        (runCalls glibc_x86_64 replay [some (F32.half, 2)] ⟨[5, 2000000000, 7], []⟩).1 ∧
    (runCalls glibc_x86_64 replay [some (F32.half, 65), some (F32.half, 2)]
        ⟨[5, 2000000000, 7], []⟩).2.rng
      = (runCalls glibc_x86_64 replay [some (F32.half, 2)]
        ⟨[5, 2000000000, 7], []⟩).2.rng) :=
  ⟨by decide,
    func_randbits_rejection_atomic glibc_x86_64 replay (some (F32.half, 65))
      [some (F32.half, 2)] ⟨[5, 2000000000, 7], []⟩ (by decide)⟩

end Runs

/-! ## Algebra of the result -/

section Algebra

variable {σ : Type}

theorem draw_advance (rand : σ → Nat × σ) (s : σ) (m k : Nat) :
    draw rand (advance rand m s) k = draw rand s (m + k) := by
  unfold draw
  rw [advance_add]

/-- C13: for bit counts `n1, n2 ≥ 0` with `n1 + n2 ≤ 64`, one call for `n1 + n2` bits
returns `lo | (hi << n1)`, where `lo` is the result of a call for `n1` bits from the same
state and `hi` the result of a call for `n2` bits made from the state the first call
leaves (and both ways leave the same generator state); in particular, from the same
state, the result for `n` bits is the result for `m` bits modulo `2 ^ n` whenever
`n ≤ m ≤ 64`. -/
theorem randbits_concat (P : Platform) (rand : σ → Nat × σ) (p1 : F32) (n1 n2 : Int)
    (s : σ) (h1 : 0 ≤ n1) (h2 : 0 ≤ n2) (h : n1 + n2 ≤ 64) :
    (randbits P rand p1 (n1 + n2) s).1 =
      (randbits P rand p1 n1 s).1 |||
        ((randbits P rand p1 n2 (randbits P rand p1 n1 s).2).1 <<< n1.toNat) ∧
    (randbits P rand p1 (n1 + n2) s).2 =
      (randbits P rand p1 n2 (randbits P rand p1 n1 s).2).2 ∧
    ∀ n m : Int, n ≤ m → m ≤ 64 →
      (randbits P rand p1 n s).1 = (randbits P rand p1 m s).1 % 2 ^ n.toNat := by
  refine ⟨?_, ?_, ?_⟩
  · apply Nat.eq_of_testBit_eq
    intro b
    have e1 : (n1 + n2).toNat = n1.toNat + n2.toNat := by omega
    rw [Nat.testBit_or, Nat.testBit_shiftLeft,
      randbits_testBit P rand p1 (n1 + n2) s b h,
      randbits_testBit P rand p1 n1 s b (by omega),
      randbits_testBit P rand p1 n2 _ (b - n1.toNat) (by omega),
      randbits_state, draw_advance, e1]
    by_cases hb : b < n1.toNat
    · have hb1 : b < n1.toNat + n2.toNat := by omega
      have hb2 : ¬ b ≥ n1.toNat := by omega
      simp [hb, hb1, hb2]
    · have hb2 : b ≥ n1.toNat := by omega
      have hb3 : n1.toNat + (b - n1.toNat) = b := by omega
      rw [hb3]
      by_cases hb4 : b < n1.toNat + n2.toNat
      · have hb5 : b - n1.toNat < n2.toNat := by omega
        simp [hb, hb2, hb4, hb5]
      · have hb5 : ¬ b - n1.toNat < n2.toNat := by omega
        simp [hb, hb4, hb5]
  · have e1 : (n1 + n2).toNat = n1.toNat + n2.toNat := by omega
    rw [randbits_state, randbits_state, randbits_state, e1, advance_add]
  · intro n m hnm hm
    apply Nat.eq_of_testBit_eq
    intro b
    rw [Nat.testBit_mod_two_pow, randbits_testBit P rand p1 n s b (by omega),
      randbits_testBit P rand p1 m s b hm]
    by_cases hb : b < n.toNat
    · have hb1 : b < m.toNat := by omega
      simp [hb, hb1]
    · simp [hb]

theorem randbits_concat_witness :
    (0 : Int) ≤ 1 ∧ (0 : Int) ≤ 2 ∧ (1 : Int) + 2 ≤ 64 ∧
    ((randbits glibc_x86_64 replay F32.half (1 + 2) [5, 2000000000, 7]).1 =
      (randbits glibc_x86_64 replay F32.half 1 [5, 2000000000, 7]).1 |||
        ((randbits glibc_x86_64 replay F32.half 2
          (randbits glibc_x86_64 replay F32.half 1 [5, 2000000000, 7]).2).1
            <<< (1 : Int).toNat) ∧
    (randbits glibc_x86_64 replay F32.half (1 + 2) [5, 2000000000, 7]).2 =
      (randbits glibc_x86_64 replay F32.half 2
        (randbits glibc_x86_64 replay F32.half 1 [5, 2000000000, 7]).2).2 ∧
    ∀ n m : Int, n ≤ m → m ≤ 64 →
      (randbits glibc_x86_64 replay F32.half n [5, 2000000000, 7]).1 =
        (randbits glibc_x86_64 replay F32.half m [5, 2000000000, 7]).1 % 2 ^ n.toNat) :=
  ⟨by decide, by decide, by decide,
    randbits_concat glibc_x86_64 replay F32.half 1 2 [5, 2000000000, 7]
      (by decide) (by decide) (by decide)⟩

end Algebra

/-! ## Diagnostics -/

section Diagnostics

variable {σ : Type}

/-- What a call writes to standard output when `p1` is not a NaN: nothing for `p1` in
`[0, 1]` and `num_bits` in `0..64`, the probability message for `p1` outside `[0, 1]`
whatever `num_bits` is, and the bit-count message for `p1` in `[0, 1]` and `num_bits`
outside `0..64`. -/
theorem func_randbits_stdout (P : Platform) (rand : σ → Nat × σ) (p1 : F32)
    (num_bits : Int) (w : World σ) (hnan : p1 ≠ F32.nan) :
    (func_randbits P rand (some (p1, num_bits)) w).2.stdout =
      if p1.inUnit then
        if num_bits < 0 ∨ 64 < num_bits then
          w.stdout ++ ["num_bits must be 64 or less\n"]
        else w.stdout
      else w.stdout ++ ["p1 must be between 0.0 and 1.0\n"] := by
  by_cases hp : p1.inUnit
  · by_cases hn : num_bits < 0 ∨ 64 < num_bits
    · simp [func_randbits, lt_zero_of_inUnit p1 hp, one_lt_of_inUnit p1 hp, hn, hp]
    · simp [func_randbits, lt_zero_of_inUnit p1 hp, one_lt_of_inUnit p1 hp, hn, hp]
  · have ht : (F32.lt p1 F32.zero || F32.lt F32.one p1) = true := by
      cases h0 : F32.lt p1 F32.zero with
      | true => rfl
      | false =>
        cases h1 : F32.lt F32.one p1 with
        | true => rfl
        | false => exact absurd (inUnit_of_tests p1 hnan h0 h1) hp
    simp [func_randbits, ht, hp]

/-- C11, the code at the failing inputs: a NaN is outside `[0, 1]`, yet for `p1 = NaN`
the probability message is never written: with `num_bits = 10` the call writes nothing
(and returns an integer), with `num_bits = 65` it writes the bit-count message. On inputs
without a NaN the diagnostics are as claimed: nothing for `(0.5, 10)`, the probability
message for `(-0.1f, 10)` and for `(1.5, 65)`, the bit-count message for `(0.5, 65)` and
`(0.5, -1)`. -/
theorem func_randbits_nan_diagnostics :
    ¬ F32.nan.inUnit ∧
    (func_randbits glibc_x86_64 replay (some (F32.nan, 10)) ⟨[1, 2, 3], []⟩).2.stdout = [] ∧
    (func_randbits glibc_x86_64 replay (some (F32.nan, 65)) ⟨[1, 2, 3], []⟩).2.stdout
      = ["num_bits must be 64 or less\n"] ∧
    (func_randbits glibc_x86_64 replay (some (F32.half, 10)) ⟨[1, 2, 3], []⟩).2.stdout = [] ∧
    (func_randbits glibc_x86_64 replay (some (F32.fin true 13421773 (-27), 10))
      ⟨[1, 2, 3], []⟩).2.stdout = ["p1 must be between 0.0 and 1.0\n"] ∧
    (func_randbits glibc_x86_64 replay (some (F32.fin false 3 (-1), 65))
      ⟨[1, 2, 3], []⟩).2.stdout = ["p1 must be between 0.0 and 1.0\n"] ∧
    (func_randbits glibc_x86_64 replay (some (F32.half, 65)) ⟨[1, 2, 3], []⟩).2.stdout
      = ["num_bits must be 64 or less\n"] ∧
    (func_randbits glibc_x86_64 replay (some (F32.half, -1)) ⟨[1, 2, 3], []⟩).2.stdout
      = ["num_bits must be 64 or less\n"] := by
  refine ⟨by decide, rfl, rfl, rfl, rfl, rfl, rfl, rfl⟩

end Diagnostics

/-! ## Monotonicity and arithmetic safety -/

section Safety

variable {σ : Type}

/-- Where the conversion of the larger threshold is defined, the result is monotone in
the probability: for `p ≤ q` in `[0, 1]` every bit set in `randbits(p, n)` is set in
`randbits(q, n)` computed from the same state, and the Hamming weight does not drop. -/
theorem randbits_mono (P : Platform) (hR : P.RAND_MAX ≤ 2147483647) (rand : σ → Nat × σ)
    (p q : F32) (hp : p.inUnit) (hq : q.inUnit) (hpq : p.toRat ≤ q.toRat)
    (hrep : F32.toInt? (F32.mul q (F32.ofInt P.RAND_MAX)) ≠ none)
    (num_bits : Int) (s : σ) (h64 : num_bits ≤ 64) :
    (∀ b, (randbits P rand p num_bits s).1.testBit b = true →
      (randbits P rand q num_bits s).1.testBit b = true) ∧
    (randbits P rand p num_bits s).1 &&& (randbits P rand q num_bits s).1
      = (randbits P rand p num_bits s).1 ∧
    hammingWeight (randbits P rand p num_bits s).1
      ≤ hammingWeight (randbits P rand q num_bits s).1 := by
  obtain ⟨_, _, hT⟩ := threshold_mono P hR p q hp hq hpq hrep
  have hbits : ∀ b, (randbits P rand p num_bits s).1.testBit b = true →
      (randbits P rand q num_bits s).1.testBit b = true := by
    intro b hb
    rw [randbits_testBit P rand p num_bits s b h64] at hb
    rw [randbits_testBit P rand q num_bits s b h64]
    simp only [Bool.and_eq_true, decide_eq_true_eq] at hb ⊢
    exact ⟨hb.1, lt_of_lt_of_le hb.2 hT⟩
  refine ⟨hbits, ?_, ?_⟩
  · apply Nat.eq_of_testBit_eq
    intro b
    rw [Nat.testBit_and]
    cases hb : (randbits P rand p num_bits s).1.testBit b with
    | false => rfl
    | true => rw [hbits b hb]; rfl
  · unfold hammingWeight
    apply Finset.card_le_card
    intro i hi
    simp only [Finset.mem_filter] at hi ⊢
    exact ⟨hi.1, hbits i hi.2⟩

/-- C14, the code at the failing input: on glibc/x86-64, for `p = 0.5 ≤ q = 1.0` and a
draw `0`, bit 0 is set in `randbits(0.5, 1)` and clear in `randbits(1.0, 1)`: the
threshold for `0.5` is `2^30`, while for `1.0` the product `2^31` does not fit an `int` and
the threshold is `INT_MIN`. The Hamming weight drops from 1 to 0. -/
theorem randbits_not_monotone_at_one :
    (F32.half.wf ∧ F32.half.inUnit) ∧ (F32.one.wf ∧ F32.one.inUnit) ∧
    F32.lt F32.half F32.one = true ∧
    threshold glibc_x86_64 F32.half = 1073741824 ∧
    threshold glibc_x86_64 F32.one = -2147483648 ∧
    (randbits glibc_x86_64 replay F32.half 1 [0]).1.testBit 0 = true ∧
    (randbits glibc_x86_64 replay F32.one 1 [0]).1.testBit 0 = false ∧
    hammingWeight (randbits glibc_x86_64 replay F32.half 1 [0]).1 = 1 ∧
    hammingWeight (randbits glibc_x86_64 replay F32.one 1 [0]).1 = 0 := by
  refine ⟨⟨by decide, by decide⟩, ⟨by decide, by decide⟩, by decide, by decide, by decide,
    by decide, by decide, by decide, by decide⟩

/-- The loop's result is its accumulator with the shifted bits of `randbits_shifts` ORed
in, one after the other. -/
theorem randbits_loop_eq_foldl (rand : σ → Nat × σ) (T : Int) (k i result : Nat) (s : σ) :
    (randbits_loop rand T k i result s).1 =
      (randbits_shifts rand T k i s).foldl
        (fun acc sh => acc ||| (sh.1 <<< sh.2) % 2 ^ 64) result := by
  induction k generalizing i result s with
  | zero => rfl
  | succ k ih =>
    simp only [randbits_loop, randbits_shifts, List.foldl_cons]
    exact ih _ _ _

/-- Every shift of the loop started at position `i` with `i + k ≤ 64` has an operand that
is 0 or 1 and a shift amount between `i` and 63, so the shifted value is the exact
product `bit * 2 ^ amount`: no bit leaves the 64-bit word. -/
theorem randbits_shifts_safe (rand : σ → Nat × σ) (T : Int) (k i : Nat) (s : σ)
    (hk : i + k ≤ 64) :
    ∀ sh ∈ randbits_shifts rand T k i s,
      sh.1 ≤ 1 ∧ i ≤ sh.2 ∧ sh.2 ≤ 63 ∧ (sh.1 <<< sh.2) % 2 ^ 64 = sh.1 * 2 ^ sh.2 := by
  induction k generalizing i s with
  | zero => simp [randbits_shifts]
  | succ k ih =>
    intro sh hsh
    simp only [randbits_shifts, List.mem_cons] at hsh
    rcases hsh with rfl | hsh
    · have hi : i ≤ 63 := by omega
      have hpow : 2 ^ i < 2 ^ 64 := Nat.pow_lt_pow_right (by decide) (by omega)
      refine ⟨by split <;> omega, Nat.le_refl _, hi, ?_⟩
      simp only [Nat.shiftLeft_eq]
      apply Nat.mod_eq_of_lt
      split <;> omega
    · obtain ⟨h1, h2, h3, h4⟩ := ih (i + 1) (rand s).2 (by omega) sh hsh
      exact ⟨h1, by omega, h3, h4⟩

/-- C15, the code at the failing input: on glibc, `p1 = 1.0` passes the validation, but
the value converted to `int` is the product `1.0f * (float)RAND_MAX = 2^31`, above
`RAND_MAX = INT_MAX = 2^31 - 1`: no `int` represents it and the conversion is undefined
(here it yields `INT_MIN`). The loop of this call (`num_bits = 64`) still shifts only
operands 0 or 1 by amounts `0..63`. -/
theorem threshold_not_representable_at_one :
    (F32.one.wf ∧ F32.one.inUnit) ∧
    (func_randbits glibc_x86_64 replay (some (F32.one, 64)) ⟨[], []⟩).1 = PyObject.Long 0 ∧
    F32.mul F32.one (F32.ofInt glibc_x86_64.RAND_MAX) = F32.fin false 8388608 8 ∧
    (F32.fin false 8388608 8).toRat = 2147483648 ∧
    F32.toInt? (F32.mul F32.one (F32.ofInt glibc_x86_64.RAND_MAX)) = none ∧
    threshold glibc_x86_64 F32.one = -2147483648 ∧
    ¬ (0 ≤ threshold glibc_x86_64 F32.one ∧
        threshold glibc_x86_64 F32.one ≤ glibc_x86_64.RAND_MAX) := by
  refine ⟨⟨by decide, by decide⟩, by decide, by decide, ?_, by decide, by decide, by decide⟩
  norm_num [F32.toRat]

end Safety

end Fastrand
